import Mathlib

/-!
Verification of the sftp-sync-deploy reconciliation engine (src/index.js).

The engine is shallowly embedded as follows.

* Paths are slash-separated segment lists (`Path := List String`), relative
  to the configured local root on the local side and given as absolute
  segment lists on the remote side.  This embeds
  `util.normalizedRelativePath` (see below) and the string concatenations
  `localPath + path.sep + filename` / `remotePath + '/' + filename`.
* A filesystem (local or remote) is a finite tree `FTree`: a node is a
  plain file or a directory with a named list of children.  Reading the
  filesystem at a path (`fs.statSync`, `fs.readdirSync`, and the remote
  counterparts) becomes lookup in the tree.
* Every remote SFTP call made by the engine is recorded in a trace
  (`List Op`); failures are `Except SftpErr`, with `SftpErr.code = 2`
  the distinguished "no such file" condition tested by `buildProject`.
* The recursive procedures (`sync`, `upload`, `removeRemote`) are given
  an explicit fuel argument so the definitions are structurally
  recursive and computable; running out of fuel yields an error result,
  so an `.ok` result certifies that the recursion completed.
* `util.js` is part of the repository but is not available under `src/`;
  the definitions taken from it (`getTask`, the path normalization) are
  modelled from the specification and are marked as such.
-/

namespace SftpSyncDeploy

/-- A filesystem path, as its list of segments (slash-separated form). -/
abbrev Path := List String

/-- A filesystem tree: a node is a plain file or a directory with a
named list of children (the order is directory-listing order). -/
inductive FTree where
  | file : FTree
  | dir : List (String × FTree) → FTree

/-- Embeds `fs.statSync(path).isDirectory()` / `stat.isDirectory()`. -/
def FTree.isDir : FTree → Bool
  | .file => false
  | .dir _ => true

/-- Embeds `fs.readdirSync(path)` together with the per-child stats:
the named children of a directory node (a file has none). -/
def FTree.childrenOf : FTree → List (String × FTree)
  | .file => []
  | .dir cs => cs

/-- Looks a name up in a child list (first match, as a real directory
has unique names).  Embeds reading the filesystem at `dir + sep + name`. -/
def lookupChild (cs : List (String × FTree)) (name : String) : Option FTree :=
  (cs.find? (fun c => c.1 == name)).map (·.2)

/-- The child list of an optional remote node, when it is a directory. -/
def remoteChildren : Option FTree → Option (List (String × FTree))
  | some (.dir cs) => some cs
  | _ => none

/-- Reading the remote filesystem at `rdir + '/' + name` below an
optional remote directory node. -/
def childLookup (r : Option FTree) (name : String) : Option FTree :=
  (remoteChildren r).bind (fun cs => lookupChild cs name)

/-- The `local` field of a `buildProject` map entry: `'file'`, `'dir'`,
`'ignored'`, or `null` (the name exists only remotely). -/
inductive LocalStatus where
  | file : LocalStatus
  | dir : LocalStatus
  | ignored : LocalStatus
  | absent : LocalStatus
deriving DecidableEq, Repr

/-- The `remote` field of a `buildProject` map entry: `'file'`, `'dir'`,
or `null` (the name exists only locally). -/
inductive RemoteStatus where
  | file : RemoteStatus
  | dir : RemoteStatus
  | absent : RemoteStatus
deriving DecidableEq, Repr

/-- One value of the `buildProject` map: `{local, remote}`. -/
structure Stats where
  localStatus : LocalStatus
  remoteStatus : RemoteStatus
deriving DecidableEq, Repr

/-- The `task.method` strings dispatched by `sync`
(`this[task.method].apply(this, args)`): `'upload'`, `'sync'`, `'noop'`. -/
inductive Method where
  | upload : Method
  | sync : Method
  | noop : Method
deriving DecidableEq, Repr

/-- The task derived for one entry: `{method, removeRemote}`. -/
structure Task where
  method : Method
  removeRemote : Bool
deriving DecidableEq, Repr

/-- Modelled from the spec: `util.getTask` (util.js is not under src/).
The decision table of spec section 4.3: the local side drives the method
(`Ignored`/`Absent` yield `noop`, a file uploads, a directory syncs), a
remote entry of a different type forces `removeRemote`, and a name that
exists only remotely is removed (`noop` with `removeRemote`). -/
def getTask (stats : Stats) : Task :=
  match stats.localStatus, stats.remoteStatus with
  | .ignored, _ => { method := .noop, removeRemote := false }
  | .absent, _ => { method := .noop, removeRemote := true }
  | .file, .absent => { method := .upload, removeRemote := false }
  | .file, .file => { method := .upload, removeRemote := false }
  | .file, .dir => { method := .upload, removeRemote := true }
  | .dir, .absent => { method := .sync, removeRemote := false }
  | .dir, .dir => { method := .sync, removeRemote := false }
  | .dir, .file => { method := .sync, removeRemote := true }

/-- An SFTP error; `code = 2` is the `No such file` condition tested in
`buildProject` (`err.code === 2`). -/
structure SftpErr where
  code : Int
deriving DecidableEq, Repr

/-- One remote SFTP call issued by the engine (the observable effect
vocabulary): listing, stat, file transfer, directory creation, and the
two removal primitives. -/
inductive Op where
  | readdir : Path → Op
  | stat : Path → Op
  | fastPut : Path → Path → Op
  | mkdir : Path → Op
  | rmdir : Path → Op
  | unlink : Path → Op
deriving DecidableEq, Repr

/-- Read-only operations: directory listing and stat. -/
def Op.isRead : Op → Bool
  | .readdir _ => true
  | .stat _ => true
  | _ => false

/-- Remote deletion operations: `unlink` and `rmdir`. -/
def Op.isDelete : Op → Bool
  | .rmdir _ => true
  | .unlink _ => true
  | _ => false

/-- Remote creation operations: `fastPut` and `mkdir`. -/
def Op.isWrite : Op → Bool
  | .fastPut _ _ => true
  | .mkdir _ => true
  | _ => false

/-- The remote path an operation acts on (for `fastPut`, the target). -/
def Op.remotePath : Op → Path
  | .readdir p => p
  | .stat p => p
  | .fastPut _ p => p
  | .mkdir p => p
  | .rmdir p => p
  | .unlink p => p

/-- The constructor options relevant to the engine: `dryRun` and
`exclude`, plus the glob matcher itself.  `mat pathForMatch isDir
pattern` embeds `minimatch(pathForMatch, pattern)` where the trailing
separator appended for directories is carried as the Boolean flag. -/
structure DeployEnv where
  dryRun : Bool
  exclude : List String
  mat : Path → Bool → String → Bool

/-- Embeds `SftpDeploy.prototype.isIgnored`: the path relative to the
local root (with its directory flag, standing for the appended trailing
separator) is tested against every exclude pattern.  The relative
slash-path of `util.normalizedRelativePath` is modelled from the spec as
the segment list itself (util.js is not under src/). -/
def isIgnored (env : DeployEnv) (localPath : Path) (isDir : Bool) : Bool :=
  env.exclude.any (fun pattern => env.mat localPath isDir pattern)

/-- The part of the SFTP session used by `buildProject`: `readdir` and
a `stat` reduced to the `isDirectory()` bit actually consumed. -/
structure SftpSession where
  readdir : Path → Except SftpErr (List String)
  statIsDir : Path → Except SftpErr Bool

/-- First rejection among a list of settled operations (`Promise.all`
rejects with the first failure; the traces of all launched operations
are still recorded). -/
def firstError {α : Type} (rs : List (List Op × Except SftpErr α)) : Option SftpErr :=
  rs.findSome? (fun r => match r.2 with
    | .error e => some e
    | .ok _ => none)

/-- First failed stat among the per-remote-entry stat results of
`buildProject`. -/
def firstStatErr (rs : List (String × Except SftpErr Bool)) : Option SftpErr :=
  rs.findSome? (fun r => match r.2 with
    | .error e => some e
    | .ok _ => none)

/-- Update-or-append on the project map, embedding
`project.set(file.filename, stats)` after a remote stat: if the name is
already present its `remote` field is set in place, otherwise a new
entry with `local = null` is appended. -/
def setRemoteStat (m : List (String × Stats)) (name : String) (t : RemoteStatus) :
    List (String × Stats) :=
  if m.any (fun e => e.1 == name) then
    m.map (fun e => if e.1 == name then (e.1, { e.2 with remoteStatus := t }) else e)
  else
    m ++ [(name, { localStatus := .absent, remoteStatus := t })]

/-- Embeds `SftpDeploy.prototype.buildProject`.  The local listing
(`fs.readdirSync` plus stat and `isIgnored` per entry) seeds the map
with `remote = null`; then the remote directory is listed — a failure
with code 2 (`No such file`) resolves with the local-only map, any other
listing failure rejects — and every remote entry is statted (all stats
are launched; `Promise.all` rejects with the first stat failure) and
folded into the map. -/
def buildProject (sftp : SftpSession) (env : DeployEnv) (rel rpath : Path)
    (locals : List (String × FTree)) :
    List Op × Except SftpErr (List (String × Stats)) :=
  let base := locals.map (fun c =>
    (c.1, { localStatus := if isIgnored env (rel ++ [c.1]) c.2.isDir then LocalStatus.ignored
                           else if c.2.isDir then LocalStatus.dir else LocalStatus.file,
            remoteStatus := RemoteStatus.absent : Stats }))
  match sftp.readdir rpath with
  | .error e =>
    if e.code = 2 then ([Op.readdir rpath], .ok base)
    else ([Op.readdir rpath], .error e)
  | .ok remoteList =>
    let statted := remoteList.map (fun n => (n, sftp.statIsDir (rpath ++ [n])))
    let tr := Op.readdir rpath :: remoteList.map (fun n => Op.stat (rpath ++ [n]))
    match firstStatErr statted with
    | some e => (tr, .error e)
    | none =>
      (tr, .ok (statted.foldl (fun m p =>
        match p.2 with
        | .ok isDir => setRemoteStat m p.1 (if isDir then .dir else .file)
        | .error _ => m) base))

/-- The SFTP session backed by a concrete remote tree `r` sitting at
`rpath`: `readdir` answers the listing of `rpath` (code 2 when the node
is absent, a non-2 failure when it is a plain file), and `statIsDir`
answers for the immediate children of `rpath`. -/
def treeSession (rpath : Path) (r : Option FTree) : SftpSession where
  readdir := fun p =>
    if p = rpath then
      match r with
      | none => .error { code := 2 }
      | some .file => .error { code := 4 }
      | some (.dir cs) => .ok (cs.map (·.1))
    else .error { code := 2 }
  statIsDir := fun p =>
    match remoteChildren r with
    | some cs =>
      if p.dropLast = rpath then
        match lookupChild cs (p.getLastD "") with
        | some t => .ok t.isDir
        | none => .error { code := 2 }
      else .error { code := 2 }
    | none => .error { code := 2 }

/-- The mutable deployer state relevant to the session facade: the
cached `this.sftp` handle (`undefined` until the first negotiation).
Handles are identified by numbers. -/
structure DeployState where
  sftp : Option Nat

/-- Embeds `SftpDeploy.prototype.getSftp`: a cached handle is returned
as-is; otherwise a fresh session `fresh` is negotiated via
`this.client.sftp`, cached, and returned.  The Boolean records whether a
new session was established. -/
def getSftp (fresh : Nat) (s : DeployState) : Nat × DeployState × Bool :=
  match s.sftp with
  | some h => (h, s, false)
  | none => (fresh, { sftp := some fresh }, true)

/-- Embeds `SftpDeploy.prototype.noop`: a dummy operation issuing
nothing and resolving immediately. -/
def noop : List Op × Except SftpErr Unit :=
  ([], .ok ())

/-- The error produced when the fuel of a fueled procedure runs out;
with enough fuel it never arises, so an `.ok` result certifies that the
modelled recursion completed. -/
def fuelErr : SftpErr := { code := 0 }

/-- Embeds `SftpDeploy.prototype.removeRemote` on the remote subtree
`rt` sitting at `rpath`: stat the path; a directory is emptied by
recursive removal of every listed child and then removed with `rmdir`,
a file is removed with `unlink`. -/
def removeRemote (fuel : Nat) (rpath : Path) (rt : FTree) :
    List Op × Except SftpErr Unit :=
  match fuel with
  | 0 => ([], .error fuelErr)
  | fuel + 1 =>
    match rt with
    | .file => ([Op.stat rpath, Op.unlink rpath], .ok ())
    | .dir cs =>
      let children := cs.map (fun c => removeRemote fuel (rpath ++ [c.1]) c.2)
      let tr := Op.stat rpath :: Op.readdir rpath :: (children.map (·.1)).flatten
      match firstError children with
      | some e => (tr, .error e)
      | none => (tr ++ [Op.rmdir rpath], .ok ())

/-- Embeds `SftpDeploy.prototype.upload` on the local subtree `t` at
relative path `rel`, targeting remote path `rpath`.  A file is
transferred with `fastPut`; a directory is created with `mkdir` and its
children are re-checked against `isIgnored` — excluded children are
skipped — and uploaded recursively.  `parentOk` records whether the
remote parent directory exists: `fastPut`/`mkdir` into a missing remote
directory fail (the server rejects the path), which the model reports
after recording the attempted call. -/
def upload (fuel : Nat) (env : DeployEnv) (rel rpath : Path) (t : FTree)
    (parentOk : Bool) : List Op × Except SftpErr FTree :=
  match fuel with
  | 0 => ([], .error fuelErr)
  | fuel + 1 =>
    match t with
    | .file =>
      ([Op.fastPut rel rpath], if parentOk then .ok .file else .error { code := 2 })
    | .dir cs =>
      if parentOk then
        let kept := cs.filterMap (fun c =>
          if isIgnored env (rel ++ [c.1]) c.2.isDir then none
          else some (c.1, upload fuel env (rel ++ [c.1]) (rpath ++ [c.1]) c.2 true))
        let tr := Op.mkdir rpath :: (kept.map (·.2.1)).flatten
        match firstError (kept.map (·.2)) with
        | some e => (tr, .error e)
        | none =>
          (tr, .ok (.dir (kept.filterMap (fun k => k.2.2.toOption.map (fun u => (k.1, u))))))
      else ([Op.mkdir rpath], .error { code := 2 })

/-- Whether the remote parent directory exists, deciding if a transfer
into it can succeed (`fastPut`/`mkdir` into a missing directory fail). -/
def parentExists : Option FTree → Bool
  | some (.dir _) => true
  | _ => false

mutual

/-- Embeds `SftpDeploy.prototype.sync` on the local directory subtree
`lt` (relative path `rel`) against the optional remote node `r` at
`rpath`.  The project map is built; in dry-run mode each entry is only
reported and the engine recurses whenever the task method is `sync` or
the local side is a directory; otherwise every entry's task is executed
(see `applyTask`).  The value of a completed non-dry run is the new
remote node at `rpath` (`sync` itself never creates the remote
directory, so an absent remote stays absent). -/
def sync (fuel : Nat) (env : DeployEnv) (rel rpath : Path) (lt : FTree)
    (r : Option FTree) : List Op × Except SftpErr (Option FTree) :=
  match fuel with
  | 0 => ([], .error fuelErr)
  | fuel + 1 =>
    let lcs := lt.childrenOf
    match buildProject (treeSession rpath r) env rel rpath lcs with
    | (tr, .error e) => (tr, .error e)
    | (tr, .ok project) =>
      if env.dryRun then
        let subs := project.map (fun e =>
          let task := getTask e.2
          if task.method = Method.sync ∨ e.2.localStatus = LocalStatus.dir then
            match lookupChild lcs e.1 with
            | some t =>
              sync fuel env (rel ++ [e.1]) (rpath ++ [e.1]) t (childLookup r e.1)
            | none => ([], .error { code := 1 })
          else ([], .ok r))
        let tr2 := (subs.map (·.1)).flatten
        match firstError subs with
        | some e => (tr ++ tr2, .error e)
        | none => (tr ++ tr2, .ok r)
      else
        let results := project.map (fun e => applyTask fuel env rel rpath lcs r e)
        let tr2 := (results.map (·.1)).flatten
        match firstError results with
        | some e => (tr ++ tr2, .error e)
        | none =>
          match r with
          | some (.dir _) =>
            (tr ++ tr2,
             .ok (some (.dir (results.filterMap (fun p => p.2.toOption.bind id)))))
          | _ => (tr ++ tr2, .ok r)

/-- Embeds the per-entry operation pushed by `sync` for one project map
entry `e` (src/index.js lines 157-159): if the task says so, the remote
entry is removed first (`removeRemote`; an absent remote path makes the
initial stat fail), and only after the removal completes the task method
runs — `noop`, `upload` of the local file, or a recursive `sync` into
the subdirectory.  The value is the remote child entry after the
operation (`none` when the name ends up absent remotely). -/
def applyTask (fuel : Nat) (env : DeployEnv) (rel rpath : Path)
    (lcs : List (String × FTree)) (r : Option FTree) (e : String × Stats) :
    List Op × Except SftpErr (Option (String × FTree)) :=
  match fuel with
  | 0 => ([], .error fuelErr)
  | fuel + 1 =>
    let task := getTask e.2
    let lrel := rel ++ [e.1]
    let rp := rpath ++ [e.1]
    let parentOk := parentExists r
    let pre : List Op × Except SftpErr Unit :=
      if task.removeRemote then
        match childLookup r e.1 with
        | some rt => removeRemote fuel rp rt
        | none => ([Op.stat rp], .error { code := 2 })
      else ([], .ok ())
    match pre with
    | (tr, .error er) => (tr, .error er)
    | (tr, .ok _) =>
      match task.method with
      | .noop =>
        (tr ++ noop.1,
         noop.2.map (fun _ =>
           if task.removeRemote then none
           else (childLookup r e.1).map (fun rt => (e.1, rt))))
      | .upload =>
        match lookupChild lcs e.1 with
        | some t =>
          let res := upload fuel env lrel rp t parentOk
          (tr ++ res.1, res.2.map (fun u => some (e.1, u)))
        | none => (tr, .error { code := 1 })
      | .sync =>
        match lookupChild lcs e.1 with
        | some t =>
          let res := sync fuel env lrel rp t
            (if task.removeRemote then none else childLookup r e.1)
          (tr ++ res.1, res.2.map (fun v => v.map (fun rt => (e.1, rt))))
        | none => (tr, .error { code := 1 })

end

/-- The classification-level reading of one reconciliation run used for
the idempotence analysis: every entry of the project map of `lt` against
`r`, at this level and recursively below every entry the run would
recurse into (task method `sync`), is classified with
`removeRemote = false`.  Exhausted fuel counts as true: the predicate
over all fuels covers every depth. -/
def allNoRemove (fuel : Nat) (env : DeployEnv) (rel rpath : Path) (lt : FTree)
    (r : Option FTree) : Bool :=
  match fuel with
  | 0 => true
  | fuel + 1 =>
    let lcs := lt.childrenOf
    match buildProject (treeSession rpath r) env rel rpath lcs with
    | (_, .error _) => false
    | (_, .ok project) =>
      project.all (fun e =>
        let task := getTask e.2
        !task.removeRemote &&
        (if task.method = Method.sync then
          match lookupChild lcs e.1 with
          | some t =>
            allNoRemove fuel env (rel ++ [e.1]) (rpath ++ [e.1]) t (childLookup r e.1)
          | none => false
        else true))

/-- A deployment environment with no exclusions, used by concrete runs. -/
def plainEnv : DeployEnv :=
  { dryRun := false, exclude := [], mat := fun _ _ _ => false }

/-- A session whose remote directory is missing (listing fails with the
distinguished code 2). -/
def sessAbsent : SftpSession :=
  { readdir := fun _ => .error { code := 2 }, statIsDir := fun _ => .ok false }

/-- A session whose remote listing fails with a non-distinguished code. -/
def sessBroken : SftpSession :=
  { readdir := fun _ => .error { code := 7 }, statIsDir := fun _ => .ok false }

/-- A session that lists one remote entry whose stat then fails. -/
def sessStatFail : SftpSession :=
  { readdir := fun _ => .ok ["old.txt"], statIsDir := fun _ => .error { code := 3 } }

/-- A deployment environment with no exclusions in dry-run mode. -/
def plainDryEnv : DeployEnv :=
  { dryRun := true, exclude := [], mat := fun _ _ _ => false }

/-- The number of deletion operations (`unlink`/`rmdir`) a trace
performs at exactly the remote path `p`. -/
def deletesAt (tr : List Op) (p : Path) : Nat :=
  (tr.filter (fun op => op.isDelete && op.remotePath == p)).length

/-- A deployment environment whose matcher excludes exactly the
directory `sub/logs` (a directory-only exclusion). -/
def envC10 : DeployEnv :=
  { dryRun := false, exclude := ["logs/"],
    mat := fun p isDir _ => p == ["sub", "logs"] && isDir }

/-- A local directory with one plain file and one excluded
subdirectory, for the concrete upload run. -/
def csC10 : List (String × FTree) :=
  [("a.txt", .file), ("logs", .dir [("l.txt", .file)])]

/-- The `local` status `buildProject` derives for a name from the local
filesystem node found at it (`null`/absent when the name is not local). -/
def localStatusFor (env : DeployEnv) (rel : Path) (n : String) :
    Option FTree → LocalStatus
  | some t =>
    if isIgnored env (rel ++ [n]) t.isDir then .ignored
    else if t.isDir then .dir else .file
  | none => .absent

/-- The `remote` status `buildProject` derives for a name from the
remote filesystem node found at it. -/
def remoteStatusFor : Option FTree → RemoteStatus
  | some t => if t.isDir then .dir else .file
  | none => .absent

/-- First-match lookup in a project map (the embedding of
`project.get(filename)`). -/
def lookupStats (m : List (String × Stats)) (n : String) : Option Stats :=
  (m.find? (fun e => e.1 == n)).map (·.2)

/-- The local status stored for a name, absent when the name is not in
the map. -/
def statusOfOpt : Option Stats → LocalStatus
  | some s => s.localStatus
  | none => .absent

/-- A filesystem tree is well formed when every directory lists
pairwise-distinct names, recursively (what a real `readdir` yields). -/
inductive WFT : FTree → Prop where
  | file : WFT .file
  | dir : ∀ {cs : List (String × FTree)}, (cs.map Prod.fst).Nodup →
      (∀ c ∈ cs, WFT c.2) → WFT (.dir cs)

/-- Well-formedness of an optional remote node. -/
def WFOpt (r : Option FTree) : Prop :=
  ∀ t, r = some t → WFT t

theorem WFOpt_none : WFOpt none := by
  intro t h
  cases h

theorem WFT_children {cs : List (String × FTree)} (h : WFT (.dir cs)) :
    (cs.map Prod.fst).Nodup ∧ ∀ c ∈ cs, WFT c.2 := by
  cases h with
  | dir h1 h2 => exact ⟨h1, h2⟩

theorem lookupChild_mem {cs : List (String × FTree)} {n : String} {t : FTree}
    (h : lookupChild cs n = some t) : (n, t) ∈ cs := by
  unfold lookupChild at h
  cases hf : cs.find? (fun c => c.1 == n) with
  | none => rw [hf] at h; cases h
  | some c =>
    rw [hf] at h
    have hm := List.mem_of_find?_eq_some hf
    have hp := List.find?_some hf
    have : c.1 = n := by simpa using hp
    cases h
    cases c
    cases this
    exact hm

theorem lookupChild_of_mem {cs : List (String × FTree)} {n : String} {t : FTree}
    (hnd : (cs.map Prod.fst).Nodup) (h : (n, t) ∈ cs) :
    lookupChild cs n = some t := by
  induction cs with
  | nil => cases h
  | cons c rest ih =>
    rw [List.map_cons, List.nodup_cons] at hnd
    rcases List.mem_cons.mp h with h1 | h1
    · subst h1
      simp [lookupChild]
    · have hne : ¬ (c.1 == n) = true := by
        intro hc
        apply hnd.1
        have : c.1 = n := by simpa using hc
        rw [this]
        exact List.mem_map.mpr ⟨(n, t), h1, rfl⟩
      have hrec := ih hnd.2 h1
      unfold lookupChild at hrec ⊢
      simpa [hne] using hrec

theorem lookupChild_isSome_iff {cs : List (String × FTree)} {n : String} :
    (∃ t, lookupChild cs n = some t) ↔ n ∈ cs.map Prod.fst := by
  constructor
  · rintro ⟨t, h⟩
    exact List.mem_map.mpr ⟨(n, t), lookupChild_mem h, rfl⟩
  · intro h
    rcases List.mem_map.mp h with ⟨c, hc, hn⟩
    unfold lookupChild
    cases hf : cs.find? (fun x => x.1 == n) with
    | none =>
      rw [List.find?_eq_none] at hf
      exact absurd (by simpa using hn) (by simpa using hf c hc)
    | some c2 => exact ⟨c2.2, by simp⟩

theorem firstError_eq_none {α : Type} {rs : List (List Op × Except SftpErr α)} :
    firstError rs = none ↔ ∀ x ∈ rs, ∃ a, x.2 = Except.ok a := by
  unfold firstError
  rw [List.findSome?_eq_none_iff]
  constructor
  · intro h x hx
    have := h x hx
    cases hv : x.2 with
    | error e => rw [hv] at this; simp at this
    | ok a => exact ⟨a, rfl⟩
  · intro h x hx
    rcases h x hx with ⟨a, ha⟩
    rw [ha]

theorem firstError_isSome {α : Type} {rs : List (List Op × Except SftpErr α)}
    {x : List Op × Except SftpErr α} {e : SftpErr}
    (hx : x ∈ rs) (he : x.2 = Except.error e) : ∃ e2, firstError rs = some e2 := by
  cases hf : firstError rs with
  | none =>
    rcases firstError_eq_none.mp hf x hx with ⟨a, ha⟩
    rw [ha] at he
    cases he
  | some e2 => exact ⟨e2, rfl⟩

theorem mem_flatten_traces {β : Type} {rs : List (List Op × β)} {op : Op} :
    op ∈ (rs.map (·.1)).flatten ↔ ∃ x ∈ rs, op ∈ x.1 := by
  rw [List.mem_flatten]
  constructor
  · rintro ⟨l, hl, hop⟩
    rcases List.mem_map.mp hl with ⟨x, hx, rfl⟩
    exact ⟨x, hx, hop⟩
  · rintro ⟨x, hx, hop⟩
    exact ⟨x.1, List.mem_map.mpr ⟨x, hx, rfl⟩, hop⟩

/-- C3: an entry whose local status is `Ignored` is classified `Noop`
with `removeRemote = false` whatever the remote status is, and executing
its task issues no remote operation at all and leaves the remote entry
(of any type) in place. -/
theorem getTask_ignored_noop_untouched (rs : RemoteStatus) (fuel : Nat)
    (env : DeployEnv) (rel rpath : Path) (lcs : List (String × FTree))
    (r : Option FTree) (n : String) :
    getTask { localStatus := .ignored, remoteStatus := rs } =
      { method := .noop, removeRemote := false } ∧
    applyTask (fuel + 1) env rel rpath lcs r
        (n, { localStatus := .ignored, remoteStatus := rs }) =
      ([], .ok ((childLookup r n).map (fun rt => (n, rt)))) :=
  ⟨rfl, rfl⟩

/-- C5: for an entry that is locally present and not ignored, the
classifier orders a prior remote removal exactly when the local and
remote types differ (file against directory); and with an absent remote
side it never does. -/
theorem getTask_removeRemote_iff_type_change (l : LocalStatus) (r : RemoteStatus)
    (h1 : l ≠ LocalStatus.ignored) (h2 : l ≠ LocalStatus.absent) :
    ((getTask { localStatus := l, remoteStatus := r }).removeRemote = true ↔
      ((l = LocalStatus.file ∧ r = RemoteStatus.dir) ∨
       (l = LocalStatus.dir ∧ r = RemoteStatus.file))) ∧
    (getTask { localStatus := l, remoteStatus := RemoteStatus.absent }).removeRemote
      = false := by
  cases l <;> cases r <;> simp_all [getTask]

/-- Witness for C5 at the concrete type-change input file-over-directory
and at the remote-absent input. -/
theorem getTask_removeRemote_iff_type_change_witness :
    (getTask { localStatus := .file, remoteStatus := .dir }).removeRemote = true ∧
    (getTask { localStatus := .file, remoteStatus := .absent }).removeRemote = false :=
  ⟨(getTask_removeRemote_iff_type_change .file .dir (by decide) (by decide)).1.mpr
      (Or.inl ⟨rfl, rfl⟩),
   (getTask_removeRemote_iff_type_change .file .file (by decide) (by decide)).2⟩

/-- C8: the session facade caches the handle: the first `getSftp` call
negotiates and caches a session, a call in any state that already holds
a cached handle returns exactly that handle with the state unchanged and
no new negotiation, and in particular the second of two successive calls
returns the handle cached by the first. -/
theorem getSftp_caches_session (f f2 h : Nat) (s : DeployState)
    (hc : s.sftp = some h) :
    getSftp f { sftp := none } = (f, { sftp := some f }, true) ∧
    getSftp f2 s = (h, s, false) ∧
    getSftp f2 (getSftp f { sftp := none }).2.1 =
      (f, (getSftp f { sftp := none }).2.1, false) := by
  refine ⟨rfl, ?_, rfl⟩
  cases s
  cases hc
  rfl

/-- Witness for C8: a state caching handle 5 answers 5 without
renegotiating, whatever fresh session could be offered. -/
theorem getSftp_caches_session_witness :
    getSftp 7 { sftp := some 5 } = (5, { sftp := some 5 }, false) :=
  (getSftp_caches_session 3 7 5 { sftp := some 5 } rfl).2.1

theorem firstStatErr_isSome {rs : List (String × Except SftpErr Bool)}
    {x : String × Except SftpErr Bool} {e : SftpErr}
    (hx : x ∈ rs) (he : x.2 = Except.error e) : ∃ e2, firstStatErr rs = some e2 := by
  cases hf : firstStatErr rs with
  | none =>
    unfold firstStatErr at hf
    rw [List.findSome?_eq_none_iff] at hf
    have := hf x hx
    rw [he] at this
    simp at this
  | some e2 => exact ⟨e2, rfl⟩

/-- C6: scanning one directory level (`buildProject`) treats a remote
listing failure with the distinguished code 2 (`No such file`) as an
empty remote directory — the scan resolves and every map entry has an
absent remote side — while a listing failure with any other code, or a
failure of any per-entry remote stat, rejects the scan. -/
theorem buildProject_absent_ok_and_errors
    (sftp : SftpSession) (env : DeployEnv) (rel rpath : Path)
    (locals : List (String × FTree)) :
    (∀ e, sftp.readdir rpath = .error e → e.code = 2 →
      ∃ m, (buildProject sftp env rel rpath locals).2 = .ok m ∧
        ∀ p ∈ m, p.2.remoteStatus = RemoteStatus.absent) ∧
    (∀ e, sftp.readdir rpath = .error e → e.code ≠ 2 →
      (buildProject sftp env rel rpath locals).2 = .error e) ∧
    (∀ lst, sftp.readdir rpath = .ok lst →
      (∃ n ∈ lst, ∃ e2, sftp.statIsDir (rpath ++ [n]) = .error e2) →
      ∃ e3, (buildProject sftp env rel rpath locals).2 = .error e3) := by
  refine ⟨?_, ?_, ?_⟩
  · intro e he hc
    refine ⟨locals.map (fun c =>
      (c.1, { localStatus :=
                if isIgnored env (rel ++ [c.1]) c.2.isDir then LocalStatus.ignored
                else if c.2.isDir then LocalStatus.dir else LocalStatus.file,
              remoteStatus := RemoteStatus.absent })), ?_, ?_⟩
    · simp [buildProject, he, hc]
    · intro p hp
      rcases List.mem_map.mp hp with ⟨c, _, rfl⟩
      rfl
  · intro e he hc
    simp [buildProject, he, hc]
  · intro lst hl hex
    rcases hex with ⟨n, hn, e2, he2⟩
    have hmem : (n, sftp.statIsDir (rpath ++ [n])) ∈
        lst.map (fun m => (m, sftp.statIsDir (rpath ++ [m]))) :=
      List.mem_map.mpr ⟨n, hn, rfl⟩
    rcases firstStatErr_isSome hmem he2 with ⟨e3, he3⟩
    refine ⟨e3, ?_⟩
    simp [buildProject, hl, he3]

/-- Witness for C6 on three concrete sessions: a code-2 listing failure
resolves with an all-absent remote column, a code-7 listing failure
rejects, and a stat failure of a listed entry rejects. -/
theorem buildProject_absent_ok_and_errors_witness :
    (∃ m, (buildProject sessAbsent plainEnv [] [] [("a.txt", FTree.file)]).2 = .ok m ∧
       ∀ p ∈ m, p.2.remoteStatus = RemoteStatus.absent) ∧
    (buildProject sessBroken plainEnv [] [] []).2 = .error { code := 7 } ∧
    (∃ e3, (buildProject sessStatFail plainEnv [] [] []).2 = .error e3) :=
  ⟨(buildProject_absent_ok_and_errors sessAbsent plainEnv [] [] _).1 _ rfl rfl,
   (buildProject_absent_ok_and_errors sessBroken plainEnv [] [] _).2.1 _ rfl (by decide),
   (buildProject_absent_ok_and_errors sessStatFail plainEnv [] [] _).2.2 ["old.txt"] rfl
     ⟨"old.txt", by simp, { code := 3 }, rfl⟩⟩

theorem removeRemote_no_write (fuel : Nat) :
    ∀ (p : Path) (rt : FTree), ∀ op ∈ (removeRemote fuel p rt).1, op.isWrite = false := by
  induction fuel with
  | zero => intro p rt op hop; simp [removeRemote] at hop
  | succ fuel ih =>
    intro p rt op hop
    cases rt with
    | file =>
      simp only [removeRemote, List.mem_cons, List.not_mem_nil, or_false] at hop
      rcases hop with h | h
      · subst h; rfl
      · subst h; rfl
    | dir cs =>
      simp only [removeRemote] at hop
      cases hf : firstError (cs.map (fun c => removeRemote fuel (p ++ [c.1]) c.2)) with
      | some e =>
        rw [hf] at hop
        simp only [List.mem_cons] at hop
        rcases hop with h | h | h
        · subst h; rfl
        · subst h; rfl
        · rcases mem_flatten_traces.mp h with ⟨x, hx, hox⟩
          rcases List.mem_map.mp hx with ⟨c, _, rfl⟩
          exact ih _ _ op hox
      | none =>
        rw [hf] at hop
        simp only [List.mem_cons, List.mem_append, List.mem_singleton,
          List.not_mem_nil, or_false] at hop
        rcases hop with (h | h | h) | h
        · subst h; rfl
        · subst h; rfl
        · rcases mem_flatten_traces.mp h with ⟨x, hx, hox⟩
          rcases List.mem_map.mp hx with ⟨c, _, rfl⟩
          exact ih _ _ op hox
        · subst h; rfl

theorem removeRemote_paths_below (fuel : Nat) :
    ∀ (p : Path) (rt : FTree), ∀ op ∈ (removeRemote fuel p rt).1,
      p <+: op.remotePath := by
  induction fuel with
  | zero => intro p rt op hop; simp [removeRemote] at hop
  | succ fuel ih =>
    intro p rt op hop
    cases rt with
    | file =>
      simp only [removeRemote, List.mem_cons, List.not_mem_nil, or_false] at hop
      rcases hop with h | h
      · subst h; exact List.prefix_refl p
      · subst h; exact List.prefix_refl p
    | dir cs =>
      simp only [removeRemote] at hop
      have hsub : ∀ o2 ∈ ((cs.map (fun c => removeRemote fuel (p ++ [c.1]) c.2)).map
          (·.1)).flatten, p <+: o2.remotePath := by
        intro o2 ho2
        rcases mem_flatten_traces.mp ho2 with ⟨x, hx, hox⟩
        rcases List.mem_map.mp hx with ⟨c, _, rfl⟩
        have := ih (p ++ [c.1]) c.2 o2 hox
        exact List.prefix_append p [c.1] |>.trans this
      cases hf : firstError (cs.map (fun c => removeRemote fuel (p ++ [c.1]) c.2)) with
      | some e =>
        rw [hf] at hop
        simp only [List.mem_cons] at hop
        rcases hop with h | h | h
        · subst h; exact List.prefix_refl p
        · subst h; exact List.prefix_refl p
        · exact hsub op h
      | none =>
        rw [hf] at hop
        simp only [List.mem_cons, List.mem_append, List.mem_singleton,
          List.not_mem_nil, or_false] at hop
        rcases hop with (h | h | h) | h
        · subst h; exact List.prefix_refl p
        · subst h; exact List.prefix_refl p
        · exact hsub op h
        · subst h; exact List.prefix_refl p

theorem deletesAt_append (a b : List Op) (p : Path) :
    deletesAt (a ++ b) p = deletesAt a p + deletesAt b p := by
  simp [deletesAt, List.filter_append]

theorem removeRemote_one_delete (fuel : Nat) :
    ∀ (p : Path) (rt : FTree), (removeRemote fuel p rt).2 = .ok () →
      deletesAt (removeRemote fuel p rt).1 p = 1 := by
  induction fuel with
  | zero => intro p rt h; simp [removeRemote] at h
  | succ fuel ih =>
    intro p rt hok
    cases rt with
    | file => simp [removeRemote, deletesAt, Op.isDelete, Op.remotePath]
    | dir cs =>
      simp only [removeRemote]
      cases hf : firstError (cs.map (fun c => removeRemote fuel (p ++ [c.1]) c.2)) with
      | some e =>
        exfalso
        simp only [removeRemote, hf] at hok
        cases hok
      | none =>
        have hflat : deletesAt ((cs.map (fun c =>
            removeRemote fuel (p ++ [c.1]) c.2)).map (·.1)).flatten p = 0 := by
          unfold deletesAt
          rw [List.length_eq_zero, List.filter_eq_nil_iff]
          intro op hop
          rcases mem_flatten_traces.mp hop with ⟨x, hx, hox⟩
          rcases List.mem_map.mp hx with ⟨c, _, rfl⟩
          have hpre := removeRemote_paths_below fuel (p ++ [c.1]) c.2 op hox
          intro hcontra
          rw [Bool.and_eq_true] at hcontra
          have hp : op.remotePath = p := by simpa using hcontra.2
          have := hpre.length_le
          rw [hp] at this
          simp at this
        have h1 : deletesAt [Op.stat p, Op.readdir p] p = 0 := by
          simp [deletesAt, Op.isDelete]
        calc deletesAt (Op.stat p :: Op.readdir p :: ((cs.map (fun c =>
              removeRemote fuel (p ++ [c.1]) c.2)).map (·.1)).flatten ++ [Op.rmdir p]) p
            = deletesAt ([Op.stat p, Op.readdir p] ++ (((cs.map (fun c =>
              removeRemote fuel (p ++ [c.1]) c.2)).map (·.1)).flatten ++ [Op.rmdir p])) p := by
              simp
          _ = 1 := by
              rw [deletesAt_append, deletesAt_append, h1, hflat]
              simp [deletesAt, Op.isDelete, Op.remotePath]

/-- C4: an entry that exists only remotely (`local` is `Absent`) is
classified `Noop` with `removeRemote = true`, and executing its task
performs exactly the recursive remote removal: its trace is the
`removeRemote` trace, which contains exactly one deletion at the entry's
own path (the recursion deletes children at strictly longer paths), no
upload or directory creation, and the entry is absent afterwards. -/
theorem absent_local_removes_remote
    (fuel : Nat) (env : DeployEnv) (rel rpath : Path) (lcs : List (String × FTree))
    (r : Option FTree) (n : String) (rs : RemoteStatus) (rt : FTree)
    (hr : childLookup r n = some rt)
    (hok : (removeRemote fuel (rpath ++ [n]) rt).2 = .ok ()) :
    getTask { localStatus := .absent, remoteStatus := rs } =
      { method := .noop, removeRemote := true } ∧
    applyTask (fuel + 1) env rel rpath lcs r
        (n, { localStatus := .absent, remoteStatus := rs }) =
      ((removeRemote fuel (rpath ++ [n]) rt).1, .ok none) ∧
    deletesAt (removeRemote fuel (rpath ++ [n]) rt).1 (rpath ++ [n]) = 1 ∧
    ∀ op ∈ (removeRemote fuel (rpath ++ [n]) rt).1, op.isWrite = false := by
  obtain ⟨tr2, hrr⟩ : ∃ tr2, removeRemote fuel (rpath ++ [n]) rt =
      (tr2, Except.ok ()) :=
    ⟨(removeRemote fuel (rpath ++ [n]) rt).1, by rw [← hok]⟩
  have h1 : (removeRemote fuel (rpath ++ [n]) rt).1 = tr2 := by rw [hrr]
  refine ⟨rfl, ?_, removeRemote_one_delete fuel _ rt hok,
    removeRemote_no_write fuel _ rt⟩
  rw [h1]
  simp only [applyTask, getTask, hr, hrr, noop]
  simp [Except.map]

/-- Witness for C4 at a concrete orphan: remote `old` is a directory
holding one file; its task stats and removes recursively, with exactly
one delete at `old` itself and no write anywhere. -/
theorem absent_local_removes_remote_witness :
    getTask { localStatus := .absent, remoteStatus := .dir } =
      { method := .noop, removeRemote := true } ∧
    applyTask 3 plainEnv [] [] [] (some (.dir [("old", .dir [("f.txt", .file)])]))
        ("old", { localStatus := .absent, remoteStatus := .dir }) =
      ((removeRemote 2 ["old"] (.dir [("f.txt", .file)])).1, .ok none) ∧
    deletesAt (removeRemote 2 ["old"] (.dir [("f.txt", .file)])).1 ["old"] = 1 ∧
    ∀ op ∈ (removeRemote 2 ["old"] (.dir [("f.txt", .file)])).1, op.isWrite = false :=
  absent_local_removes_remote 2 plainEnv [] [] []
    (some (.dir [("old", .dir [("f.txt", .file)])])) "old" .dir
    (.dir [("f.txt", .file)]) rfl rfl

theorem nodup_names_eq {cs : List (String × FTree)} {n : String} {a b : FTree}
    (hnd : (cs.map Prod.fst).Nodup) (ha : (n, a) ∈ cs) (hb : (n, b) ∈ cs) :
    a = b := by
  have h1 := lookupChild_of_mem hnd ha
  have h2 := lookupChild_of_mem hnd hb
  rw [h1] at h2
  cases h2
  rfl

theorem upload_dir_trace (fuel : Nat) (env : DeployEnv) (rel rpath : Path)
    (cs : List (String × FTree)) :
    (upload (fuel + 1) env rel rpath (.dir cs) true).1 =
      Op.mkdir rpath :: ((cs.filterMap (fun c =>
        if isIgnored env (rel ++ [c.1]) c.2.isDir then none
        else some (c.1, upload fuel env (rel ++ [c.1]) (rpath ++ [c.1]) c.2 true))).map
        (·.2.1)).flatten := by
  simp only [upload, if_true]
  split <;> rfl

theorem upload_no_delete (fuel : Nat) :
    ∀ (env : DeployEnv) (rel rpath : Path) (t : FTree) (pe : Bool),
      ∀ op ∈ (upload fuel env rel rpath t pe).1, op.isDelete = false := by
  induction fuel with
  | zero => intro env rel rpath t pe op hop; simp [upload] at hop
  | succ fuel ih =>
    intro env rel rpath t pe op hop
    cases t with
    | file =>
      simp only [upload, List.mem_singleton] at hop
      subst hop; rfl
    | dir cs =>
      cases pe with
      | false =>
        simp only [upload, if_false, Bool.false_eq_true, List.mem_singleton] at hop
        subst hop; rfl
      | true =>
        rw [upload_dir_trace] at hop
        rcases List.mem_cons.mp hop with h | h
        · subst h; rfl
        · rcases List.mem_flatten.mp h with ⟨l, hl, hol⟩
          rcases List.mem_map.mp hl with ⟨k, hk, rfl⟩
          rcases List.mem_filterMap.mp hk with ⟨c, _, hfc⟩
          by_cases hig : isIgnored env (rel ++ [c.1]) c.2.isDir
          · rw [if_pos hig] at hfc; cases hfc
          · rw [if_neg hig] at hfc
            cases hfc
            exact ih env _ _ c.2 true op hol

theorem upload_paths_below (fuel : Nat) :
    ∀ (env : DeployEnv) (rel rpath : Path) (t : FTree) (pe : Bool),
      ∀ op ∈ (upload fuel env rel rpath t pe).1, rpath <+: op.remotePath := by
  induction fuel with
  | zero => intro env rel rpath t pe op hop; simp [upload] at hop
  | succ fuel ih =>
    intro env rel rpath t pe op hop
    cases t with
    | file =>
      simp only [upload, List.mem_singleton] at hop
      subst hop; exact List.prefix_refl rpath
    | dir cs =>
      cases pe with
      | false =>
        simp only [upload, if_false, Bool.false_eq_true, List.mem_singleton] at hop
        subst hop; exact List.prefix_refl rpath
      | true =>
        rw [upload_dir_trace] at hop
        rcases List.mem_cons.mp hop with h | h
        · subst h; exact List.prefix_refl rpath
        · rcases List.mem_flatten.mp h with ⟨l, hl, hol⟩
          rcases List.mem_map.mp hl with ⟨k, hk, rfl⟩
          rcases List.mem_filterMap.mp hk with ⟨c, _, hfc⟩
          by_cases hig : isIgnored env (rel ++ [c.1]) c.2.isDir
          · rw [if_pos hig] at hfc; cases hfc
          · rw [if_neg hig] at hfc
            cases hfc
            exact (List.prefix_append rpath [c.1]).trans (ih env _ _ c.2 true op hol)

theorem upload_file_no_mkdir (fuel : Nat) (env : DeployEnv) (rel rpath : Path)
    (pe : Bool) (q : Path) :
    Op.mkdir q ∉ (upload fuel env rel rpath .file pe).1 := by
  cases fuel <;> simp [upload]

theorem upload_fastPut_check (fuel : Nat) :
    ∀ (env : DeployEnv) (rel rpath : Path) (t : FTree) (pe : Bool) (l r2 : Path),
      Op.fastPut l r2 ∈ (upload fuel env rel rpath t pe).1 →
      (l = rel ∧ t = .file) ∨ isIgnored env l false = false := by
  induction fuel with
  | zero => intro env rel rpath t pe l r2 hop; simp [upload] at hop
  | succ fuel ih =>
    intro env rel rpath t pe l r2 hop
    cases t with
    | file =>
      simp only [upload, List.mem_singleton] at hop
      cases hop
      exact Or.inl ⟨rfl, rfl⟩
    | dir cs =>
      cases pe with
      | false =>
        simp only [upload, if_false, Bool.false_eq_true, List.mem_singleton] at hop
        cases hop
      | true =>
        rw [upload_dir_trace] at hop
        rcases List.mem_cons.mp hop with h | h
        · cases h
        · rcases List.mem_flatten.mp h with ⟨lst, hl, hol⟩
          rcases List.mem_map.mp hl with ⟨k, hk, rfl⟩
          rcases List.mem_filterMap.mp hk with ⟨c, _, hfc⟩
          by_cases hig : isIgnored env (rel ++ [c.1]) c.2.isDir
          · rw [if_pos hig] at hfc; cases hfc
          · rw [if_neg hig] at hfc
            cases hfc
            rcases ih env _ _ c.2 true l r2 hol with ⟨hrel, hfile⟩ | hok
            · subst hrel
              refine Or.inr ?_
              rw [hfile] at hig
              simpa [FTree.isDir] using hig
            · exact Or.inr hok

theorem upload_mkdir_check (fuel : Nat) :
    ∀ (env : DeployEnv) (rel rpath : Path) (cs : List (String × FTree)) (q : Path),
      Op.mkdir q ∈ (upload fuel env rel rpath (.dir cs) true).1 →
      q = rpath ∨ ∃ s, q = rpath ++ s ∧ s ≠ [] ∧
        isIgnored env (rel ++ s) true = false := by
  induction fuel with
  | zero => intro env rel rpath cs q hop; simp [upload] at hop
  | succ fuel ih =>
    intro env rel rpath cs q hop
    rw [upload_dir_trace] at hop
    rcases List.mem_cons.mp hop with h | h
    · cases h; exact Or.inl rfl
    · rcases List.mem_flatten.mp h with ⟨lst, hl, hol⟩
      rcases List.mem_map.mp hl with ⟨k, hk, rfl⟩
      rcases List.mem_filterMap.mp hk with ⟨c, _, hfc⟩
      by_cases hig : isIgnored env (rel ++ [c.1]) c.2.isDir
      · rw [if_pos hig] at hfc; cases hfc
      · rw [if_neg hig] at hfc
        cases hfc
        cases hc2 : c.2 with
        | file =>
          rw [hc2] at hol
          exact absurd hol (upload_file_no_mkdir fuel env _ _ true q)
        | dir cs2 =>
          rw [hc2] at hol hig
          rcases ih env (rel ++ [c.1]) (rpath ++ [c.1]) cs2 q hol with h2 | ⟨s, hs, hne, hok⟩
          · refine Or.inr ⟨[c.1], h2, by simp, ?_⟩
            simpa [FTree.isDir] using hig
          · refine Or.inr ⟨[c.1] ++ s, by rw [hs, List.append_assoc], by simp, ?_⟩
            rw [← List.append_assoc]
            exact hok

/-- C10: uploading a whole directory re-checks every child against the
exclusion patterns and skips excluded children recursively: every
`fastPut` in the trace targets a non-excluded relative file path, every
`mkdir` below the root corresponds to a non-excluded relative directory
path, and no operation at all happens below an excluded child. -/
theorem upload_rechecks_exclusions (fuel : Nat) (env : DeployEnv)
    (rel rpath : Path) (cs : List (String × FTree))
    (hnd : (cs.map Prod.fst).Nodup) :
    (∀ l r2, Op.fastPut l r2 ∈ (upload fuel env rel rpath (.dir cs) true).1 →
      isIgnored env l false = false) ∧
    (∀ q, Op.mkdir q ∈ (upload fuel env rel rpath (.dir cs) true).1 → q ≠ rpath →
      ∃ s, q = rpath ++ s ∧ s ≠ [] ∧ isIgnored env (rel ++ s) true = false) ∧
    (∀ n c, (n, c) ∈ cs → isIgnored env (rel ++ [n]) c.isDir = true →
      ∀ op ∈ (upload fuel env rel rpath (.dir cs) true).1,
        ¬ ((rpath ++ [n]) <+: op.remotePath)) := by
  refine ⟨?_, ?_, ?_⟩
  · intro l r2 hop
    rcases upload_fastPut_check fuel env rel rpath (.dir cs) true l r2 hop with
      ⟨_, hfile⟩ | hok
    · cases hfile
    · exact hok
  · intro q hop hne
    rcases upload_mkdir_check fuel env rel rpath cs q hop with h | h
    · exact absurd h hne
    · exact h
  · intro n c hmem hig op hop hpre
    cases fuel with
    | zero => simp [upload] at hop
    | succ fuel =>
      rw [upload_dir_trace] at hop
      rcases List.mem_cons.mp hop with h | h
      · subst h
        have := hpre.length_le
        simp [Op.remotePath] at this
      · rcases List.mem_flatten.mp h with ⟨lst, hl, hol⟩
        rcases List.mem_map.mp hl with ⟨k, hk, rfl⟩
        rcases List.mem_filterMap.mp hk with ⟨c2, hc2, hfc⟩
        by_cases hig2 : isIgnored env (rel ++ [c2.1]) c2.2.isDir
        · rw [if_pos hig2] at hfc; cases hfc
        · rw [if_neg hig2] at hfc
          cases hfc
          have hpre2 := upload_paths_below fuel env _ _ c2.2 true op hol
          have heq : rpath ++ [n] = rpath ++ [c2.1] := by
            rcases List.prefix_or_prefix_of_prefix hpre hpre2 with hc | hc
            · exact hc.eq_of_length (by simp)
            · exact (hc.eq_of_length (by simp)).symm
          have hn : n = c2.1 := by
            have := List.append_cancel_left heq
            simpa using this
          subst hn
          have : c = c2.2 := nodup_names_eq hnd hmem hc2
          rw [← this] at hig2
          exact hig2 hig

/-- Witness for C10: on `csC10` with the `logs/` exclusion, the plain
file goes through a non-excluded path and no operation of the run
reaches below the excluded `logs` child. -/
theorem upload_rechecks_exclusions_witness :
    isIgnored envC10 ["sub", "a.txt"] false = false ∧
    ¬ ((["r", "sub", "logs"] : Path) <+:
        (Op.mkdir ["r", "sub"]).remotePath) :=
  ⟨(upload_rechecks_exclusions 3 envC10 ["sub"] ["r", "sub"] csC10 (by decide)).1
      ["sub", "a.txt"] ["r", "sub", "a.txt"] (by decide),
   (upload_rechecks_exclusions 3 envC10 ["sub"] ["r", "sub"] csC10 (by decide)).2.2
      "logs" (.dir [("l.txt", .file)])
      (List.mem_cons_of_mem _ (List.mem_cons_self _ _)) (by decide)
      (Op.mkdir ["r", "sub"]) (by decide)⟩

theorem buildProject_none (env : DeployEnv) (rel rpath : Path)
    (lcs : List (String × FTree)) :
    buildProject (treeSession rpath none) env rel rpath lcs =
      ([Op.readdir rpath], .ok (lcs.map (fun c =>
        (c.1, { localStatus :=
                  if isIgnored env (rel ++ [c.1]) c.2.isDir then LocalStatus.ignored
                  else if c.2.isDir then LocalStatus.dir else LocalStatus.file,
                remoteStatus := RemoteStatus.absent })))) := by
  simp [buildProject, treeSession]

theorem buildProject_trace_shape (s : SftpSession) (env : DeployEnv)
    (rel rpath : Path) (lcs : List (String × FTree)) :
    ∀ op ∈ (buildProject s env rel rpath lcs).1,
      op.isRead = true ∧ rpath <+: op.remotePath ∧ op.isDelete = false ∧
      op.isWrite = false := by
  intro op hop
  unfold buildProject at hop
  cases hrd : s.readdir rpath with
  | error e =>
    rw [hrd] at hop
    dsimp only at hop
    by_cases hc : e.code = 2
    · rw [if_pos hc] at hop
      simp only [List.mem_singleton] at hop
      subst hop
      exact ⟨rfl, List.prefix_refl rpath, rfl, rfl⟩
    · rw [if_neg hc] at hop
      simp only [List.mem_singleton] at hop
      subst hop
      exact ⟨rfl, List.prefix_refl rpath, rfl, rfl⟩
  | ok remoteList =>
    rw [hrd] at hop
    dsimp only at hop
    have hop2 : op ∈ Op.readdir rpath ::
        remoteList.map (fun n => Op.stat (rpath ++ [n])) := by
      revert hop
      split <;> exact fun h => h
    rcases List.mem_cons.mp hop2 with h | h
    · subst h
      exact ⟨rfl, List.prefix_refl rpath, rfl, rfl⟩
    · rcases List.mem_map.mp h with ⟨n, _, rfl⟩
      exact ⟨rfl, List.prefix_append rpath [n], rfl, rfl⟩

theorem buildProject_readdir_mem (s : SftpSession) (env : DeployEnv)
    (rel rpath : Path) (lcs : List (String × FTree)) :
    Op.readdir rpath ∈ (buildProject s env rel rpath lcs).1 := by
  unfold buildProject
  cases hrd : s.readdir rpath with
  | error e =>
    dsimp only
    by_cases hc : e.code = 2
    · rw [if_pos hc]; exact List.mem_singleton.mpr rfl
    · rw [if_neg hc]; exact List.mem_singleton.mpr rfl
  | ok remoteList =>
    dsimp only
    split <;> exact List.mem_cons_self _ _

theorem sync_mem_bp (fuel : Nat) (env : DeployEnv) (rel rpath : Path)
    (lt : FTree) (r : Option FTree) :
    ∀ op ∈ (buildProject (treeSession rpath r) env rel rpath lt.childrenOf).1,
      op ∈ (sync (fuel + 1) env rel rpath lt r).1 := by
  intro op hop
  rcases hbp : buildProject (treeSession rpath r) env rel rpath lt.childrenOf with
    ⟨tr0, bres⟩
  rw [hbp] at hop
  cases bres with
  | error e =>
    simp only [sync, hbp]
    exact hop
  | ok project =>
    simp only [sync, hbp]
    by_cases hd : env.dryRun
    · rw [if_pos hd]
      split <;> exact List.mem_append_left _ hop
    · rw [if_neg hd]
      split
      · exact List.mem_append_left _ hop
      · split <;> exact List.mem_append_left _ hop

theorem applyTask_mem {fuel : Nat} {env : DeployEnv} {rel rpath : Path}
    {lcs : List (String × FTree)} {r : Option FTree} {e : String × Stats} {op : Op}
    (hop : op ∈ (applyTask (fuel + 1) env rel rpath lcs r e).1) :
    ((getTask e.2).removeRemote = true ∧
      ((∃ rt, childLookup r e.1 = some rt ∧
          op ∈ (removeRemote fuel (rpath ++ [e.1]) rt).1) ∨
       (childLookup r e.1 = none ∧ op = Op.stat (rpath ++ [e.1])))) ∨
    ((getTask e.2).method = Method.upload ∧ ∃ t, lookupChild lcs e.1 = some t ∧
      op ∈ (upload fuel env (rel ++ [e.1]) (rpath ++ [e.1]) t (parentExists r)).1) ∨
    ((getTask e.2).method = Method.sync ∧ ∃ t, lookupChild lcs e.1 = some t ∧
      op ∈ (sync fuel env (rel ++ [e.1]) (rpath ++ [e.1]) t
        (if (getTask e.2).removeRemote then none else childLookup r e.1)).1) := by
  by_cases hrm : (getTask e.2).removeRemote
  · cases hcl : childLookup r e.1 with
    | none =>
      simp only [applyTask, hrm, if_true, hcl] at hop
      simp only [List.mem_singleton] at hop
      exact Or.inl ⟨hrm, Or.inr ⟨rfl, hop⟩⟩
    | some rt =>
      rcases hRR : removeRemote fuel (rpath ++ [e.1]) rt with ⟨tr2, res2⟩
      have htr2 : op ∈ tr2 → op ∈ (removeRemote fuel (rpath ++ [e.1]) rt).1 := by
        rw [hRR]; exact fun h => h
      cases res2 with
      | error er =>
        simp only [applyTask, hrm, if_true, hcl, hRR] at hop
        exact Or.inl ⟨hrm, Or.inl ⟨rt, rfl, htr2 hop⟩⟩
      | ok u =>
        cases u
        cases hm : (getTask e.2).method with
        | noop =>
          simp only [applyTask, hrm, if_true, hcl, hRR, hm, noop, List.append_nil] at hop
          exact Or.inl ⟨hrm, Or.inl ⟨rt, rfl, htr2 hop⟩⟩
        | upload =>
          cases hlk : lookupChild lcs e.1 with
          | some t =>
            simp only [applyTask, hrm, if_true, hcl, hRR, hm, hlk] at hop
            rcases List.mem_append.mp hop with h | h
            · exact Or.inl ⟨hrm, Or.inl ⟨rt, rfl, htr2 h⟩⟩
            · exact Or.inr (Or.inl ⟨rfl, t, rfl, h⟩)
          | none =>
            simp only [applyTask, hrm, if_true, hcl, hRR, hm, hlk] at hop
            exact Or.inl ⟨hrm, Or.inl ⟨rt, rfl, htr2 hop⟩⟩
        | sync =>
          cases hlk : lookupChild lcs e.1 with
          | some t =>
            simp only [applyTask, hrm, if_true, hcl, hRR, hm, hlk] at hop
            rcases List.mem_append.mp hop with h | h
            · exact Or.inl ⟨hrm, Or.inl ⟨rt, rfl, htr2 h⟩⟩
            · refine Or.inr (Or.inr ⟨rfl, t, rfl, ?_⟩)
              rw [if_pos hrm]
              exact h
          | none =>
            simp only [applyTask, hrm, if_true, hcl, hRR, hm, hlk] at hop
            exact Or.inl ⟨hrm, Or.inl ⟨rt, rfl, htr2 hop⟩⟩
  · cases hm : (getTask e.2).method with
    | noop =>
      simp only [applyTask, hrm, hm, noop] at hop
      simp at hop
    | upload =>
      cases hlk : lookupChild lcs e.1 with
      | some t =>
        simp only [applyTask, hrm, hm, hlk, Bool.false_eq_true, if_false,
          List.nil_append] at hop
        exact Or.inr (Or.inl ⟨rfl, t, rfl, hop⟩)
      | none =>
        simp only [applyTask, hrm, hm, hlk] at hop
        simp at hop
    | sync =>
      cases hlk : lookupChild lcs e.1 with
      | some t =>
        simp only [applyTask, hrm, hm, hlk, Bool.false_eq_true, if_false,
          List.nil_append] at hop
        refine Or.inr (Or.inr ⟨rfl, t, rfl, ?_⟩)
        rw [if_neg hrm]
        exact hop
      | none =>
        simp only [applyTask, hrm, hm, hlk] at hop
        simp at hop

theorem sync_mem {fuel : Nat} {env : DeployEnv} {rel rpath : Path} {lt : FTree}
    {r : Option FTree} {op : Op}
    (hop : op ∈ (sync (fuel + 1) env rel rpath lt r).1) :
    op ∈ (buildProject (treeSession rpath r) env rel rpath lt.childrenOf).1 ∨
    ∃ project, (buildProject (treeSession rpath r) env rel rpath lt.childrenOf).2 =
        .ok project ∧
      ∃ e, e ∈ project ∧
        ((env.dryRun = true ∧
          ((getTask e.2).method = Method.sync ∨ e.2.localStatus = LocalStatus.dir) ∧
          ∃ t, lookupChild lt.childrenOf e.1 = some t ∧
            op ∈ (sync fuel env (rel ++ [e.1]) (rpath ++ [e.1]) t (childLookup r e.1)).1) ∨
         (env.dryRun = false ∧
          op ∈ (applyTask fuel env rel rpath lt.childrenOf r e).1)) := by
  rcases hbp : buildProject (treeSession rpath r) env rel rpath lt.childrenOf with
    ⟨tr0, bres⟩
  cases bres with
  | error e =>
    simp only [sync, hbp] at hop
    left
    exact hop
  | ok project =>
    simp only [sync, hbp] at hop
    by_cases hd : env.dryRun
    · rw [if_pos hd] at hop
      split at hop <;>
      · rcases List.mem_append.mp hop with h | h
        · left; exact h
        · right
          refine ⟨project, rfl, ?_⟩
          rcases mem_flatten_traces.mp h with ⟨x, hx, hox⟩
          rcases List.mem_map.mp hx with ⟨e, he, rfl⟩
          refine ⟨e, he, Or.inl ⟨hd, ?_⟩⟩
          by_cases hcond : (getTask e.2).method = Method.sync ∨
              e.2.localStatus = LocalStatus.dir
          · refine ⟨hcond, ?_⟩
            rw [if_pos hcond] at hox
            cases hlk : lookupChild lt.childrenOf e.1 with
            | some t =>
              rw [hlk] at hox
              exact ⟨t, rfl, hox⟩
            | none =>
              rw [hlk] at hox
              simp at hox
          · rw [if_neg hcond] at hox
            simp at hox
    · have hd2 : env.dryRun = false := by
        revert hd; cases env.dryRun <;> simp
      rw [if_neg hd] at hop
      have hmem : op ∈ tr0 ∨ op ∈ ((project.map (fun e =>
          applyTask fuel env rel rpath lt.childrenOf r e)).map (·.1)).flatten := by
        revert hop
        split
        · exact fun hop => List.mem_append.mp hop
        · split <;> exact fun hop => List.mem_append.mp hop
      rcases hmem with h | h
      · left; exact h
      · right
        refine ⟨project, rfl, ?_⟩
        rcases mem_flatten_traces.mp h with ⟨x, hx, hox⟩
        rcases List.mem_map.mp hx with ⟨e, he, rfl⟩
        exact ⟨e, he, Or.inr ⟨hd2, hox⟩⟩

theorem sync_applyTask_none_no_delete (fuel : Nat) :
    (∀ (env : DeployEnv) (rel rpath : Path) (lt : FTree),
      ∀ op ∈ (sync fuel env rel rpath lt none).1, op.isDelete = false) ∧
    (∀ (env : DeployEnv) (rel rpath : Path) (lcs : List (String × FTree))
      (e : String × Stats),
      ∀ op ∈ (applyTask fuel env rel rpath lcs none e).1, op.isDelete = false) := by
  induction fuel with
  | zero =>
    refine ⟨?_, ?_⟩
    · intro env rel rpath lt op hop; simp [sync] at hop
    · intro env rel rpath lcs e op hop; simp [applyTask] at hop
  | succ fuel ih =>
    obtain ⟨ihs, iha⟩ := ih
    refine ⟨?_, ?_⟩
    · intro env rel rpath lt op hop
      rcases sync_mem hop with h | ⟨project, _, e, _, hcase⟩
      · exact (buildProject_trace_shape _ env rel rpath lt.childrenOf op h).2.2.1
      · rcases hcase with ⟨_, _, t, _, hox⟩ | ⟨_, hox⟩
        · exact ihs env _ _ t op hox
        · exact iha env rel rpath lt.childrenOf e op hox
    · intro env rel rpath lcs e op hop
      rcases applyTask_mem hop with ⟨_, ⟨rt, hcl, _⟩ | ⟨_, hst⟩⟩ | ⟨_, t, _, hox⟩ |
          ⟨_, t, _, hox⟩
      · rw [show childLookup none e.1 = none from rfl] at hcl
        cases hcl
      · subst hst; rfl
      · exact upload_no_delete fuel env _ _ t _ op hox
      · by_cases hrm : (getTask e.2).removeRemote
        · rw [if_pos hrm] at hox
          exact ihs env _ _ t op hox
        · rw [if_neg hrm] at hox
          exact ihs env _ _ t op hox

theorem sync_dry_read_only (fuel : Nat) :
    ∀ (env : DeployEnv) (rel rpath : Path) (lt : FTree) (r : Option FTree),
      env.dryRun = true →
      ∀ op ∈ (sync fuel env rel rpath lt r).1, op.isRead = true := by
  induction fuel with
  | zero => intro env rel rpath lt r _ op hop; simp [sync] at hop
  | succ fuel ih =>
    intro env rel rpath lt r hd op hop
    rcases sync_mem hop with h | ⟨project, _, e, _, hcase⟩
    · exact (buildProject_trace_shape _ env rel rpath lt.childrenOf op h).1
    · rcases hcase with ⟨_, _, t, _, hox⟩ | ⟨hd2, _⟩
      · exact ih env _ _ t _ hd op hox
      · rw [hd] at hd2
        cases hd2

/-- C7: when an entry's task orders a prior removal (non-preview mode),
the executed operation sequence is exactly the full `removeRemote` trace
followed by the corrective action's trace: the removal — which performs
no upload or directory creation — completes before the corrective
action starts, and the corrective part performs no deletion. -/
theorem removal_completes_before_corrective
    (fuel : Nat) (env : DeployEnv) (rel rpath : Path)
    (lcs : List (String × FTree)) (r : Option FTree) (n : String) (st : Stats)
    (rt : FTree)
    (hrm : (getTask st).removeRemote = true)
    (hcl : childLookup r n = some rt) :
    ∃ t2 res,
      applyTask (fuel + 1) env rel rpath lcs r (n, st) =
        ((removeRemote fuel (rpath ++ [n]) rt).1 ++ t2, res) ∧
      (∀ op ∈ (removeRemote fuel (rpath ++ [n]) rt).1, op.isWrite = false) ∧
      (∀ op ∈ t2, op.isDelete = false) := by
  have hW := removeRemote_no_write fuel (rpath ++ [n]) rt
  rcases hRR : removeRemote fuel (rpath ++ [n]) rt with ⟨tr2, res2⟩
  rw [hRR] at hW
  cases res2 with
  | error er =>
    refine ⟨[], .error er, ?_, hW, by simp⟩
    simp only [applyTask, hrm, if_true, hcl, hRR, List.append_nil]
  | ok u =>
    cases u
    cases hm : (getTask st).method with
    | noop =>
      refine ⟨[], .ok none, ?_, hW, by simp⟩
      simp only [applyTask, hrm, if_true, hcl, hRR, hm, noop, List.append_nil]
      simp [Except.map, hrm]
    | upload =>
      cases hlk : lookupChild lcs n with
      | some t =>
        refine ⟨(upload fuel env (rel ++ [n]) (rpath ++ [n]) t (parentExists r)).1,
          Except.map (fun u => some (n, u))
            (upload fuel env (rel ++ [n]) (rpath ++ [n]) t (parentExists r)).2,
          ?_, hW, ?_⟩
        · simp only [applyTask, hrm, if_true, hcl, hRR, hm, hlk]
        · exact upload_no_delete fuel env _ _ t _
      | none =>
        refine ⟨[], .error { code := 1 }, ?_, hW, by simp⟩
        simp only [applyTask, hrm, if_true, hcl, hRR, hm, hlk, List.append_nil]
    | sync =>
      cases hlk : lookupChild lcs n with
      | some t =>
        refine ⟨(sync fuel env (rel ++ [n]) (rpath ++ [n]) t none).1,
          Except.map (fun v => v.map (fun u => (n, u)))
            (sync fuel env (rel ++ [n]) (rpath ++ [n]) t none).2,
          ?_, hW, ?_⟩
        · simp only [applyTask, hrm, if_true, hcl, hRR, hm, hlk]
        · exact (sync_applyTask_none_no_delete fuel).1 env _ _ t
      | none =>
        refine ⟨[], .error { code := 1 }, ?_, hW, by simp⟩
        simp only [applyTask, hrm, if_true, hcl, hRR, hm, hlk, List.append_nil]

/-- Witness for C7 at a concrete type-changed entry: locally `d` is a
directory, remotely a plain file; its executed operation sequence is the
removal trace (stat then unlink, no write) followed by a delete-free
corrective part. -/
theorem removal_completes_before_corrective_witness :
    ∃ t2 res,
      applyTask 3 plainEnv [] [] [("d", FTree.dir [])]
          (some (.dir [("d", FTree.file)]))
          ("d", { localStatus := .dir, remoteStatus := .file }) =
        ((removeRemote 2 ["d"] FTree.file).1 ++ t2, res) ∧
      (∀ op ∈ (removeRemote 2 ["d"] FTree.file).1, op.isWrite = false) ∧
      (∀ op ∈ t2, op.isDelete = false) :=
  removal_completes_before_corrective 2 plainEnv [] [] [("d", FTree.dir [])]
    (some (.dir [("d", FTree.file)])) "d"
    { localStatus := .dir, remoteStatus := .file } FTree.file rfl rfl

theorem any_name_iff {m : List (String × Stats)} {n : String} :
    m.any (fun e => e.1 == n) = true ↔ n ∈ m.map Prod.fst := by
  simp only [List.any_eq_true, List.mem_map, beq_iff_eq]

theorem setRemoteStat_names_map {m : List (String × Stats)} {n : String}
    {t : RemoteStatus} (h : m.any (fun e => e.1 == n) = true) :
    (setRemoteStat m n t).map Prod.fst = m.map Prod.fst := by
  unfold setRemoteStat
  rw [if_pos h, List.map_map]
  apply List.map_congr_left
  intro e _
  by_cases he : (e.1 == n) = true
  · rw [Function.comp_apply, if_pos he]
  · rw [Function.comp_apply, if_neg he]

theorem setRemoteStat_names {m : List (String × Stats)} {n : String}
    {t : RemoteStatus} (k : String) :
    k ∈ (setRemoteStat m n t).map Prod.fst ↔ (k ∈ m.map Prod.fst ∨ k = n) := by
  by_cases h : m.any (fun e => e.1 == n) = true
  · rw [setRemoteStat_names_map h]
    constructor
    · exact Or.inl
    · rintro (hk | rfl)
      · exact hk
      · exact any_name_iff.mp h
  · unfold setRemoteStat
    rw [if_neg h, List.map_append]
    simp

theorem setRemoteStat_nodup {m : List (String × Stats)} {n : String}
    {t : RemoteStatus} (h : (m.map Prod.fst).Nodup) :
    ((setRemoteStat m n t).map Prod.fst).Nodup := by
  by_cases ha : m.any (fun e => e.1 == n) = true
  · rw [setRemoteStat_names_map ha]; exact h
  · unfold setRemoteStat
    rw [if_neg ha, List.map_append]
    have hn : n ∉ m.map Prod.fst := fun hc => ha (any_name_iff.mpr hc)
    simp [List.nodup_append, h, hn]

theorem setRemoteStat_lookup_ne {m : List (String × Stats)} {n : String}
    {t : RemoteStatus} {k : String} (hk : k ≠ n) :
    lookupStats (setRemoteStat m n t) k = lookupStats m k := by
  unfold setRemoteStat lookupStats
  by_cases ha : m.any (fun e => e.1 == n) = true
  · rw [if_pos ha]
    cases hf : m.find? (fun e => e.1 == k) with
    | none =>
      rw [List.find?_map]
      have hfg : ((fun (e : String × Stats) => e.1 == k) ∘
          (fun e => if e.1 == n then (e.1, { e.2 with remoteStatus := t }) else e)) =
          (fun (e : String × Stats) => e.1 == k) := by
        funext e
        by_cases he : (e.1 == n) = true
        · rw [Function.comp_apply, if_pos he]
        · rw [Function.comp_apply, if_neg he]
      rw [hfg, hf]
      rfl
    | some e =>
      rw [List.find?_map]
      have hfg : ((fun (e : String × Stats) => e.1 == k) ∘
          (fun e => if e.1 == n then (e.1, { e.2 with remoteStatus := t }) else e)) =
          (fun (e : String × Stats) => e.1 == k) := by
        funext e2
        by_cases he : (e2.1 == n) = true
        · rw [Function.comp_apply, if_pos he]
        · rw [Function.comp_apply, if_neg he]
      rw [hfg, hf]
      have hek : e.1 = k := by simpa using List.find?_some hf
      have hen : ¬ e.1 = n := by rw [hek]; exact hk
      simp [hen]
  · rw [if_neg ha, List.find?_append]
    cases hf : m.find? (fun e => e.1 == k) with
    | some e => simp
    | none =>
      simp only [Option.none_or]
      have hkn : ¬(n == k) = true := by
        intro hc
        have hc2 : n = k := by simpa using hc
        exact hk hc2.symm
      simp [hkn]

theorem setRemoteStat_lookup_eq {m : List (String × Stats)} {n : String}
    {t : RemoteStatus} :
    lookupStats (setRemoteStat m n t) n =
      some (match lookupStats m n with
            | some s => { s with remoteStatus := t }
            | none => { localStatus := .absent, remoteStatus := t }) := by
  unfold setRemoteStat lookupStats
  by_cases ha : m.any (fun e => e.1 == n) = true
  · rw [if_pos ha, List.find?_map]
    have hsome : (m.find? (fun e => e.1 == n)).isSome := by
      rw [List.find?_isSome]
      rcases List.any_eq_true.mp ha with ⟨e, he, hb⟩
      exact ⟨e, he, hb⟩
    cases hf : m.find? (fun e => e.1 == n) with
    | none => rw [hf] at hsome; cases hsome
    | some e =>
      have heq : ((fun (x : String × Stats) => x.1 == n) ∘
          (fun x => if x.1 == n then (x.1, { x.2 with remoteStatus := t }) else x)) =
          (fun (x : String × Stats) => x.1 == n) := by
        funext x
        by_cases hx : (x.1 == n) = true
        · rw [Function.comp_apply, if_pos hx]
        · rw [Function.comp_apply, if_neg hx]
      rw [heq, hf]
      have hen0 := List.find?_some hf
      have hen : e.1 = n := by simpa using hen0
      simp [hen]
  · rw [if_neg ha, List.find?_append]
    have h0 : m.find? (fun e => e.1 == n) = none := by
      rw [List.find?_eq_none]
      intro x hx hb
      exact ha (List.any_eq_true.mpr ⟨x, hx, hb⟩)
    rw [h0]
    simp [h0, lookupStats]

theorem statusOfOpt_setRemoteStat {m : List (String × Stats)} {n : String}
    {t : RemoteStatus} (k : String) :
    statusOfOpt (lookupStats (setRemoteStat m n t) k) =
      statusOfOpt (lookupStats m k) := by
  by_cases hk : k = n
  · subst hk
    rw [setRemoteStat_lookup_eq]
    cases hlk : lookupStats m k <;> simp [statusOfOpt, hlk]
  · rw [setRemoteStat_lookup_ne hk]

theorem foldl_setRemoteStat_spec (v : String → RemoteStatus) :
    ∀ (items : List (String × Except SftpErr Bool)) (base : List (String × Stats)),
      (base.map Prod.fst).Nodup →
      (∀ p ∈ items, ∃ b, p.2 = Except.ok b ∧
        (if b then RemoteStatus.dir else RemoteStatus.file) = v p.1) →
      ((items.foldl (fun m p =>
        match p.2 with
        | Except.ok isDir => setRemoteStat m p.1 (if isDir then .dir else .file)
        | Except.error _ => m) base).map Prod.fst).Nodup ∧
      (∀ n, n ∈ (items.foldl (fun m p =>
        match p.2 with
        | Except.ok isDir => setRemoteStat m p.1 (if isDir then .dir else .file)
        | Except.error _ => m) base).map Prod.fst ↔
        (n ∈ base.map Prod.fst ∨ n ∈ items.map Prod.fst)) ∧
      (∀ n, n ∉ items.map Prod.fst →
        lookupStats (items.foldl (fun m p =>
          match p.2 with
          | Except.ok isDir => setRemoteStat m p.1 (if isDir then .dir else .file)
          | Except.error _ => m) base) n = lookupStats base n) ∧
      (∀ n, n ∈ items.map Prod.fst →
        lookupStats (items.foldl (fun m p =>
          match p.2 with
          | Except.ok isDir => setRemoteStat m p.1 (if isDir then .dir else .file)
          | Except.error _ => m) base) n =
        some { localStatus := statusOfOpt (lookupStats base n),
               remoteStatus := v n }) := by
  intro items
  induction items with
  | nil =>
    intro base hnd _
    refine ⟨hnd, by simp, fun n _ => rfl, fun n hn => absurd hn (by simp)⟩
  | cons p0 rest ih =>
    intro base hnd hv
    rcases hv p0 (List.mem_cons_self _ _) with ⟨b0, hb0, hvb0⟩
    have hvrest : ∀ p ∈ rest, ∃ b, p.2 = Except.ok b ∧
        (if b then RemoteStatus.dir else RemoteStatus.file) = v p.1 :=
      fun p hp => hv p (List.mem_cons_of_mem _ hp)
    rw [List.foldl_cons, hb0]
    have hnd2 := @setRemoteStat_nodup base p0.1
      (if b0 then RemoteStatus.dir else RemoteStatus.file) hnd
    rcases ih (setRemoteStat base p0.1 (if b0 then .dir else .file)) hnd2 hvrest with
      ⟨ih1, ih2, ih3, ih4⟩
    refine ⟨ih1, ?_, ?_, ?_⟩
    · intro n
      rw [ih2 n]
      rw [setRemoteStat_names]
      constructor
      · rintro ((h | h) | h)
        · exact Or.inl h
        · exact Or.inr (by simp [h])
        · exact Or.inr (List.mem_cons_of_mem _ h)
      · rintro (h | h)
        · exact Or.inl (Or.inl h)
        · rcases List.mem_cons.mp h with h2 | h2
          · exact Or.inl (Or.inr h2)
          · exact Or.inr h2
    · intro n hn
      have hn0 : n ≠ p0.1 := fun hc => hn (by simp [hc])
      have hnr : n ∉ rest.map Prod.fst := fun hc => hn (List.mem_cons_of_mem _ hc)
      rw [ih3 n hnr, setRemoteStat_lookup_ne hn0]
    · intro n hn
      by_cases hnr : n ∈ rest.map Prod.fst
      · rw [ih4 n hnr, statusOfOpt_setRemoteStat]
      · rcases List.mem_cons.mp hn with h2 | h2
        · subst h2
          rw [ih3 _ hnr, setRemoteStat_lookup_eq]
          rw [← hvb0]
          cases hlk : lookupStats base p0.1 <;> simp [statusOfOpt, hlk]
        · exact absurd h2 hnr

theorem lookupStats_of_mem {m : List (String × Stats)} {n : String} {s : Stats}
    (hnd : (m.map Prod.fst).Nodup) (h : (n, s) ∈ m) :
    lookupStats m n = some s := by
  induction m with
  | nil => cases h
  | cons c rest ih =>
    rw [List.map_cons, List.nodup_cons] at hnd
    rcases List.mem_cons.mp h with h1 | h1
    · subst h1
      simp [lookupStats]
    · have hne : ¬ (c.1 == n) = true := by
        intro hc
        apply hnd.1
        have : c.1 = n := by simpa using hc
        rw [this]
        exact List.mem_map.mpr ⟨(n, s), h1, rfl⟩
      have hrec := ih hnd.2 h1
      unfold lookupStats at hrec ⊢
      simpa [hne] using hrec

theorem base_map_names (env : DeployEnv) (rel : Path) (lcs : List (String × FTree)) :
    (lcs.map (fun c =>
      (c.1, { localStatus :=
                if isIgnored env (rel ++ [c.1]) c.2.isDir then LocalStatus.ignored
                else if c.2.isDir then LocalStatus.dir else LocalStatus.file,
              remoteStatus := RemoteStatus.absent : Stats }))).map Prod.fst =
    lcs.map Prod.fst := by
  rw [List.map_map]
  rfl

theorem base_lookup (env : DeployEnv) (rel : Path) (lcs : List (String × FTree))
    (n : String) :
    lookupStats (lcs.map (fun c =>
      (c.1, { localStatus :=
                if isIgnored env (rel ++ [c.1]) c.2.isDir then LocalStatus.ignored
                else if c.2.isDir then LocalStatus.dir else LocalStatus.file,
              remoteStatus := RemoteStatus.absent : Stats }))) n =
    (lookupChild lcs n).map (fun t =>
      { localStatus := localStatusFor env rel n (some t),
        remoteStatus := RemoteStatus.absent }) := by
  unfold lookupStats lookupChild
  rw [List.find?_map]
  have hfg : ((fun (e : String × Stats) => e.1 == n) ∘ (fun (c : String × FTree) =>
      (c.1, { localStatus :=
                if isIgnored env (rel ++ [c.1]) c.2.isDir then LocalStatus.ignored
                else if c.2.isDir then LocalStatus.dir else LocalStatus.file,
              remoteStatus := RemoteStatus.absent : Stats }))) =
      (fun (c : String × FTree) => c.1 == n) := by
    funext c
    rfl
  rw [hfg]
  cases hf : lcs.find? (fun c => c.1 == n) with
  | none => rfl
  | some c =>
    have hcn : c.1 = n := by simpa using List.find?_some hf
    simp only [Option.map_some']
    rw [← hcn]
    rfl

theorem treeSession_stat_dir {rpath : Path} {cs : List (String × FTree)}
    {n : String} {t : FTree} (hlk : lookupChild cs n = some t) :
    (treeSession rpath (some (.dir cs))).statIsDir (rpath ++ [n]) =
      .ok t.isDir := by
  have h1 : (rpath ++ [n]).dropLast = rpath := List.dropLast_concat
  have h2 : (rpath ++ [n]).getLastD "" = n := List.getLastD_concat _ _ _
  simp [treeSession, remoteChildren, h1, h2, hlk]

theorem buildProject_file_error (env : DeployEnv) (rel rpath : Path)
    (lcs : List (String × FTree)) :
    (buildProject (treeSession rpath (some .file)) env rel rpath lcs).2 =
      .error { code := 4 } := by
  unfold buildProject
  simp [treeSession]

theorem buildProject_ok_spec {env : DeployEnv} {rel rpath : Path}
    {lcs : List (String × FTree)} {r : Option FTree}
    {project : List (String × Stats)}
    (hnd : (lcs.map Prod.fst).Nodup)
    (hbp : (buildProject (treeSession rpath r) env rel rpath lcs).2 = .ok project) :
    (project.map Prod.fst).Nodup ∧
    (∀ n, n ∈ project.map Prod.fst ↔
      (n ∈ lcs.map Prod.fst ∨ ∃ t, childLookup r n = some t)) ∧
    (∀ p ∈ project,
      p.2.localStatus = localStatusFor env rel p.1 (lookupChild lcs p.1) ∧
      p.2.remoteStatus = remoteStatusFor (childLookup r p.1)) := by
  cases r with
  | none =>
    rw [buildProject_none] at hbp
    have hproj : project = lcs.map (fun c =>
        (c.1, { localStatus :=
                  if isIgnored env (rel ++ [c.1]) c.2.isDir then LocalStatus.ignored
                  else if c.2.isDir then LocalStatus.dir else LocalStatus.file,
                remoteStatus := RemoteStatus.absent : Stats })) := by
      cases hbp
      rfl
    subst hproj
    refine ⟨by rw [base_map_names]; exact hnd, ?_, ?_⟩
    · intro n
      rw [base_map_names]
      simp [childLookup, remoteChildren]
    · intro p hp
      rcases List.mem_map.mp hp with ⟨c, hc, rfl⟩
      have hlk : lookupChild lcs c.1 = some c.2 := lookupChild_of_mem hnd hc
      rw [hlk]
      exact ⟨rfl, rfl⟩
  | some rt =>
    cases rt with
    | file =>
      rw [buildProject_file_error] at hbp
      cases hbp
    | dir cs =>
      have hrd : (treeSession rpath (some (.dir cs))).readdir rpath =
          .ok (cs.map (·.1)) := by
        simp [treeSession]
      have hv : ∀ p ∈ (cs.map (·.1)).map (fun n =>
          (n, (treeSession rpath (some (.dir cs))).statIsDir (rpath ++ [n]))),
          ∃ b, p.2 = Except.ok b ∧
            (if b then RemoteStatus.dir else RemoteStatus.file) =
              remoteStatusFor (childLookup (some (.dir cs)) p.1) := by
        intro p hp
        rcases List.mem_map.mp hp with ⟨n, hn, rfl⟩
        rcases lookupChild_isSome_iff.mpr hn with ⟨t, hlk⟩
        refine ⟨t.isDir, ?_, ?_⟩
        · exact treeSession_stat_dir hlk
        · rw [show childLookup (some (FTree.dir cs)) n = lookupChild cs n from rfl,
            hlk]
          rfl
      have hse : firstStatErr ((cs.map (·.1)).map (fun n =>
          (n, (treeSession rpath (some (.dir cs))).statIsDir (rpath ++ [n])))) =
          none := by
        unfold firstStatErr
        rw [List.findSome?_eq_none_iff]
        intro x hx
        rcases hv x hx with ⟨b, hb, _⟩
        rw [hb]
      have hfold := foldl_setRemoteStat_spec
        (fun n => remoteStatusFor (childLookup (some (.dir cs)) n))
        ((cs.map (·.1)).map (fun n =>
          (n, (treeSession rpath (some (.dir cs))).statIsDir (rpath ++ [n]))))
        (lcs.map (fun c =>
          (c.1, { localStatus :=
                    if isIgnored env (rel ++ [c.1]) c.2.isDir then LocalStatus.ignored
                    else if c.2.isDir then LocalStatus.dir else LocalStatus.file,
                  remoteStatus := RemoteStatus.absent : Stats })))
        (by rw [base_map_names]; exact hnd) hv
      have hproj : project = ((cs.map (·.1)).map (fun n =>
          (n, (treeSession rpath (some (.dir cs))).statIsDir (rpath ++ [n])))).foldl
          (fun m p =>
            match p.2 with
            | Except.ok isDir =>
              setRemoteStat m p.1 (if isDir then .dir else .file)
            | Except.error _ => m)
          (lcs.map (fun c =>
            (c.1, { localStatus :=
                      if isIgnored env (rel ++ [c.1]) c.2.isDir then LocalStatus.ignored
                      else if c.2.isDir then LocalStatus.dir else LocalStatus.file,
                    remoteStatus := RemoteStatus.absent : Stats }))) := by
        unfold buildProject at hbp
        rw [hrd] at hbp
        dsimp only at hbp
        rw [hse] at hbp
        cases hbp
        rfl
      have hsnames : ((cs.map (·.1)).map (fun n =>
          (n, (treeSession rpath (some (.dir cs))).statIsDir
            (rpath ++ [n])))).map Prod.fst = cs.map (·.1) := by
        rw [List.map_map]
        have hid : (Prod.fst ∘ fun n =>
            (n, (treeSession rpath (some (FTree.dir cs))).statIsDir
              (rpath ++ [n]))) = id := funext (fun x => rfl)
        rw [hid, List.map_id]
      rcases hfold with ⟨G1, G2, G3, G4⟩
      rw [← hproj] at G1 G2 G3 G4
      refine ⟨G1, ?_, ?_⟩
      · intro n
        rw [G2 n, base_map_names, hsnames]
        constructor
        · rintro (h | h)
          · exact Or.inl h
          · exact Or.inr (lookupChild_isSome_iff.mpr h)
        · rintro (h | h)
          · exact Or.inl h
          · exact Or.inr (lookupChild_isSome_iff.mp h)
      · intro p hp
        have hps : lookupStats project p.1 = some p.2 := by
          cases hp2 : p with
          | mk a b =>
            rw [hp2] at hp
            exact lookupStats_of_mem G1 hp
        by_cases hin : p.1 ∈ ((cs.map (·.1)).map (fun n =>
            (n, (treeSession rpath (some (.dir cs))).statIsDir
              (rpath ++ [n])))).map Prod.fst
        · have h4 := G4 p.1 hin
          rw [hps] at h4
          have h5 := Option.some.inj h4
          rw [h5, base_lookup]
          constructor
          · cases hlk : lookupChild lcs p.1 <;>
              simp [statusOfOpt, hlk, localStatusFor]
          · rfl
        · have h3 := G3 p.1 hin
          rw [hps, base_lookup] at h3
          have hin2 : p.1 ∉ cs.map (·.1) := by rwa [hsnames] at hin
          have hcl : childLookup (some (FTree.dir cs)) p.1 = none := by
            rw [show childLookup (some (FTree.dir cs)) p.1 = lookupChild cs p.1
              from rfl]
            cases hlk : lookupChild cs p.1 with
            | none => rfl
            | some t => exact absurd (lookupChild_isSome_iff.mp ⟨t, hlk⟩) hin2
          cases hlk : lookupChild lcs p.1 with
          | none =>
            rw [hlk] at h3
            cases h3
          | some t =>
            rw [hlk] at h3
            simp only [Option.map_some'] at h3
            have h6 := Option.some.inj h3
            rw [h6, hcl]
            exact ⟨rfl, rfl⟩

theorem getTask_upload_local {st : Stats} (h : (getTask st).method = Method.upload) :
    st.localStatus = LocalStatus.file := by
  rcases st with ⟨l, r⟩
  cases l <;> cases r <;> simp_all [getTask]

theorem getTask_sync_local {st : Stats} (h : (getTask st).method = Method.sync) :
    st.localStatus = LocalStatus.dir := by
  rcases st with ⟨l, r⟩
  cases l <;> cases r <;> simp_all [getTask]

theorem localStatusFor_file {env : DeployEnv} {rel : Path} {n : String}
    {o : Option FTree} (h : localStatusFor env rel n o = LocalStatus.file) :
    o = some FTree.file := by
  cases o with
  | none => simp [localStatusFor] at h
  | some t =>
    cases t with
    | file => rfl
    | dir cs =>
      by_cases hig : isIgnored env (rel ++ [n]) (FTree.dir cs).isDir
      · simp [localStatusFor, hig] at h
      · simp only [FTree.isDir] at hig
        simp [localStatusFor, FTree.isDir, hig] at h

theorem WFT_childrenOf {lt : FTree} (h : WFT lt) :
    (lt.childrenOf.map Prod.fst).Nodup ∧ ∀ c ∈ lt.childrenOf, WFT c.2 := by
  cases h with
  | file =>
    constructor
    · simp [FTree.childrenOf]
    · intro c hc
      simp [FTree.childrenOf] at hc
  | dir h1 h2 => exact ⟨h1, h2⟩

theorem sync_applyTask_no_mkdir (fuel : Nat) :
    (∀ (env : DeployEnv) (rel rpath : Path) (lt : FTree) (r : Option FTree)
      (q : Path), WFT lt → Op.mkdir q ∉ (sync fuel env rel rpath lt r).1) ∧
    (∀ (env : DeployEnv) (rel rpath : Path) (lcs : List (String × FTree))
      (r : Option FTree) (e : String × Stats) (q : Path),
      (∀ c ∈ lcs, WFT c.2) →
      e.2.localStatus = localStatusFor env rel e.1 (lookupChild lcs e.1) →
      Op.mkdir q ∉ (applyTask fuel env rel rpath lcs r e).1) := by
  induction fuel with
  | zero =>
    refine ⟨?_, ?_⟩
    · intro env rel rpath lt r q _ hop; simp [sync] at hop
    · intro env rel rpath lcs r e q _ _ hop; simp [applyTask] at hop
  | succ fuel ih =>
    obtain ⟨ihs, iha⟩ := ih
    refine ⟨?_, ?_⟩
    · intro env rel rpath lt r q hwf hop
      obtain ⟨hnd, hcw⟩ := WFT_childrenOf hwf
      rcases sync_mem hop with h | ⟨project, hbpok, e, he, hcase⟩
      · have h4 := (buildProject_trace_shape _ env rel rpath lt.childrenOf _ h).2.2.2
        cases h4
      · rcases hcase with ⟨_, _, t, hlk, hox⟩ | ⟨_, hox⟩
        · exact ihs env _ _ t _ q (hcw _ (lookupChild_mem hlk)) hox
        · obtain ⟨_, _, K3⟩ := buildProject_ok_spec hnd hbpok
          exact iha env rel rpath lt.childrenOf r e q hcw (K3 e he).1 hox
    · intro env rel rpath lcs r e q hcw hstat hop
      rcases applyTask_mem hop with ⟨_, ⟨rt, _, hox⟩ | ⟨_, hst⟩⟩ | ⟨hm, t, hlk, hox⟩ |
          ⟨hm, t, hlk, hox⟩
      · have h4 := removeRemote_no_write fuel _ rt _ hox
        cases h4
      · cases hst
      · have hf : e.2.localStatus = LocalStatus.file := getTask_upload_local hm
        rw [hf] at hstat
        have := localStatusFor_file hstat.symm
        rw [this] at hlk
        cases hlk
        exact upload_file_no_mkdir fuel env _ _ _ q hox
      · exact ihs env _ _ t _ q (hcw _ (lookupChild_mem hlk)) hox

theorem sync_applyTask_paths_below (fuel : Nat) :
    (∀ (env : DeployEnv) (rel rpath : Path) (lt : FTree) (r : Option FTree),
      ∀ op ∈ (sync fuel env rel rpath lt r).1, rpath <+: op.remotePath) ∧
    (∀ (env : DeployEnv) (rel rpath : Path) (lcs : List (String × FTree))
      (r : Option FTree) (e : String × Stats),
      ∀ op ∈ (applyTask fuel env rel rpath lcs r e).1, rpath <+: op.remotePath) := by
  induction fuel with
  | zero =>
    refine ⟨?_, ?_⟩
    · intro env rel rpath lt r op hop; simp [sync] at hop
    · intro env rel rpath lcs r e op hop; simp [applyTask] at hop
  | succ fuel ih =>
    obtain ⟨ihs, iha⟩ := ih
    refine ⟨?_, ?_⟩
    · intro env rel rpath lt r op hop
      rcases sync_mem hop with h | ⟨project, _, e, _, hcase⟩
      · exact (buildProject_trace_shape _ env rel rpath lt.childrenOf op h).2.1
      · rcases hcase with ⟨_, _, t, _, hox⟩ | ⟨_, hox⟩
        · exact (List.prefix_append rpath [e.1]).trans (ihs env _ _ t _ op hox)
        · exact iha env rel rpath lt.childrenOf r e op hox
    · intro env rel rpath lcs r e op hop
      rcases applyTask_mem hop with ⟨_, ⟨rt, _, hox⟩ | ⟨_, hst⟩⟩ | ⟨_, t, _, hox⟩ |
          ⟨_, t, _, hox⟩
      · exact (List.prefix_append rpath [e.1]).trans
          (removeRemote_paths_below fuel _ rt op hox)
      · subst hst
        exact List.prefix_append rpath [e.1]
      · exact (List.prefix_append rpath [e.1]).trans
          (upload_paths_below fuel env _ _ t _ op hox)
      · exact (List.prefix_append rpath [e.1]).trans (ihs env _ _ t _ op hox)

theorem buildProject_readdir_only (s : SftpSession) (env : DeployEnv)
    (rel rpath : Path) (lcs : List (String × FTree)) :
    ∀ q, Op.readdir q ∈ (buildProject s env rel rpath lcs).1 → q = rpath := by
  intro q hop
  unfold buildProject at hop
  cases hrd : s.readdir rpath with
  | error e =>
    rw [hrd] at hop
    dsimp only at hop
    by_cases hc : e.code = 2
    · rw [if_pos hc] at hop
      simp only [List.mem_singleton] at hop
      cases hop
      rfl
    · rw [if_neg hc] at hop
      simp only [List.mem_singleton] at hop
      cases hop
      rfl
  | ok remoteList =>
    rw [hrd] at hop
    dsimp only at hop
    have hop2 : Op.readdir q ∈ Op.readdir rpath ::
        remoteList.map (fun n => Op.stat (rpath ++ [n])) := by
      revert hop
      split <;> exact fun h => h
    rcases List.mem_cons.mp hop2 with h | h
    · cases h
      rfl
    · rcases List.mem_map.mp h with ⟨n, _, hs⟩
      cases hs

theorem sync_ok_readdir_mem {fuel : Nat} {env : DeployEnv} {rel rpath : Path}
    {lt : FTree} {r : Option FTree} {tr : List Op} {v : Option FTree}
    (h : sync fuel env rel rpath lt r = (tr, Except.ok v)) :
    Op.readdir rpath ∈ tr := by
  cases fuel with
  | zero =>
    rw [show sync 0 env rel rpath lt r = ([], Except.error fuelErr) from rfl] at h
    cases h
  | succ fuel =>
    have hm := sync_mem_bp fuel env rel rpath lt r (Op.readdir rpath)
      (buildProject_readdir_mem _ env rel rpath lt.childrenOf)
    rw [h] at hm
    exact hm

/-- C1: in dry-run mode the reconciler performs only read operations
(listing and stat, never upload, mkdir, rmdir, unlink or any removal),
and — when the level completes — it recurses into an entry's
subdirectory, observable as the listing of that entry's remote path,
exactly when the derived task method is `sync` or the entry's local
status is a directory. -/
theorem dry_run_reads_only_and_recursion
    (fuel : Nat) (env : DeployEnv) (rel rpath : Path) (lt : FTree)
    (r : Option FTree)
    (hd : env.dryRun = true)
    (hnd : (lt.childrenOf.map Prod.fst).Nodup) :
    (∀ op ∈ (sync fuel env rel rpath lt r).1, op.isRead = true) ∧
    (∀ tr v project, sync fuel env rel rpath lt r = (tr, Except.ok v) →
      (buildProject (treeSession rpath r) env rel rpath lt.childrenOf).2 =
        Except.ok project →
      ∀ n st, (n, st) ∈ project →
        (Op.readdir (rpath ++ [n]) ∈ tr ↔
          ((getTask st).method = Method.sync ∨
            st.localStatus = LocalStatus.dir))) := by
  refine ⟨sync_dry_read_only fuel env rel rpath lt r hd, ?_⟩
  intro tr v project hrun hbp2 n st hmem
  cases fuel with
  | zero =>
    rw [show sync 0 env rel rpath lt r = ([], Except.error fuelErr) from rfl] at hrun
    cases hrun
  | succ fuel =>
    rcases hbp : buildProject (treeSession rpath r) env rel rpath lt.childrenOf with
      ⟨tr0, bres⟩
    rw [hbp] at hbp2
    have hb : bres = Except.ok project := hbp2
    subst hb
    have hokproj : (buildProject (treeSession rpath r) env rel rpath
        lt.childrenOf).2 = Except.ok project := by rw [hbp]
    obtain ⟨K1, _, _⟩ := buildProject_ok_spec hnd hokproj
    simp only [sync, hbp] at hrun
    rw [if_pos hd] at hrun
    split at hrun
    · exact absurd (congrArg Prod.snd hrun) (by simp)
    · rename_i heq
      have htr := congrArg Prod.fst hrun
      dsimp only at htr
      subst htr
      have hall := firstError_eq_none.mp heq
      constructor
      · intro hmem2
        rcases List.mem_append.mp hmem2 with h | h
        · have hq := buildProject_readdir_only (treeSession rpath r) env rel rpath
            lt.childrenOf (rpath ++ [n]) (by rw [hbp]; exact h)
          have hlen := congrArg List.length hq
          simp at hlen
        · rcases mem_flatten_traces.mp h with ⟨x, hx, hox⟩
          rcases List.mem_map.mp hx with ⟨e2, he2, rfl⟩
          by_cases hcond2 : (getTask e2.2).method = Method.sync ∨
              e2.2.localStatus = LocalStatus.dir
          · rw [if_pos hcond2] at hox
            cases hlk2 : lookupChild lt.childrenOf e2.1 with
            | none =>
              rw [hlk2] at hox
              simp at hox
            | some t2 =>
              rw [hlk2] at hox
              have hpre := (sync_applyTask_paths_below fuel).1 env _ _ t2 _ _ hox
              have heqp : rpath ++ [e2.1] = rpath ++ [n] :=
                hpre.eq_of_length (by simp [Op.remotePath])
              have hen : e2.1 = n := by
                have := List.append_cancel_left heqp
                simpa using this
              have he2m : (n, e2.2) ∈ project := by
                rw [← hen]
                exact he2
              have hst1 := lookupStats_of_mem K1 hmem
              have hst2 := lookupStats_of_mem K1 he2m
              rw [hst1] at hst2
              have : st = e2.2 := Option.some.inj hst2
              rw [this]
              exact hcond2
          · rw [if_neg hcond2] at hox
            simp at hox
      · intro hcond
        have hFmem : (if (getTask st).method = Method.sync ∨
            st.localStatus = LocalStatus.dir then
              match lookupChild lt.childrenOf n with
              | some t =>
                sync fuel env (rel ++ [n]) (rpath ++ [n]) t (childLookup r n)
              | none => ([], Except.error { code := 1 })
            else ([], Except.ok r)) ∈ project.map (fun e =>
              if (getTask e.2).method = Method.sync ∨
                e.2.localStatus = LocalStatus.dir then
                match lookupChild lt.childrenOf e.1 with
                | some t =>
                  sync fuel env (rel ++ [e.1]) (rpath ++ [e.1]) t (childLookup r e.1)
                | none => ([], Except.error { code := 1 })
              else ([], Except.ok r)) :=
          List.mem_map_of_mem _ hmem
        rcases hall _ hFmem with ⟨a, ha⟩
        rw [if_pos hcond] at ha hFmem
        cases hlk : lookupChild lt.childrenOf n with
        | none =>
          rw [hlk] at ha
          cases ha
        | some t =>
          rw [hlk] at ha hFmem
          dsimp only at ha hFmem
          rcases hs : sync fuel env (rel ++ [n]) (rpath ++ [n]) t
            (childLookup r n) with ⟨trc, resc⟩
          rw [hs] at ha hFmem
          have hb2 : resc = Except.ok a := ha
          subst hb2
          have hrd := sync_ok_readdir_mem hs
          refine List.mem_append_right _ ?_
          exact mem_flatten_traces.mpr ⟨(trc, Except.ok a), hFmem, hrd⟩

/-- Witness for C1 on a concrete dry run: the level lists one local
directory `a`, one local file `b.txt` and one remote orphan `old.txt`;
the reconciler recurses into `a` (observable as the listing of its
remote path) because its local side is a directory. -/
theorem dry_run_reads_only_and_recursion_witness :
    Op.readdir ["a"] ∈ (sync 4 plainDryEnv [] []
      (FTree.dir [("a", FTree.dir []), ("b.txt", FTree.file)])
      (some (FTree.dir [("old.txt", FTree.file)]))).1 :=
  ((dry_run_reads_only_and_recursion 4 plainDryEnv [] []
      (FTree.dir [("a", FTree.dir []), ("b.txt", FTree.file)])
      (some (FTree.dir [("old.txt", FTree.file)])) rfl (by decide)).2
    _ _ _ rfl rfl "a" { localStatus := .dir, remoteStatus := .absent }
    (by decide)).mpr (Or.inr rfl)

/-- C2 counterexample: on the spec's own scenario — local `sub/`
holding `x.txt`, remote absent — the classifier does yield `Sync` with
no removal, but executing that action does not create the remote
directory: the complete trace is one listing and one attempted
`fastPut`, it contains no `mkdir` at all, and the run fails (code 2)
instead of transferring the child under a created directory. -/
theorem sync_dir_absent_cex :
    getTask { localStatus := .dir, remoteStatus := .absent } =
      { method := .sync, removeRemote := false } ∧
    sync 5 plainEnv ["sub"] ["sub"] (.dir [("x.txt", .file)]) none =
      ([Op.readdir ["sub"], Op.fastPut ["sub", "x.txt"] ["sub", "x.txt"]],
       .error { code := 2 }) ∧
    ((sync 5 plainEnv ["sub"] ["sub"] (.dir [("x.txt", .file)]) none).1.any
      (fun op => match op with
        | Op.mkdir _ => true
        | _ => false)) = false :=
  ⟨rfl, rfl, rfl⟩

/-- C2 (amended): an entry with a local directory and an absent remote
side is classified `Sync` with `removeRemoteFirst = false`, and
executing that action recurses into reconciliation of the subdirectory
with the absent remote treated as empty, but never creates the remote
directory: no `mkdir` is ever issued by `sync` on a well-formed local
tree. -/
theorem sync_dir_absent_amended (fuel : Nat) (env : DeployEnv) (rel rpath : Path)
    (lt : FTree) (r : Option FTree) (q : Path) (hwf : WFT lt) :
    getTask { localStatus := .dir, remoteStatus := .absent } =
      { method := .sync, removeRemote := false } ∧
    Op.mkdir q ∉ (sync fuel env rel rpath lt r).1 :=
  ⟨rfl, (sync_applyTask_no_mkdir fuel).1 env rel rpath lt r q hwf⟩

/-- Witness for C2 (amended) at the concrete scenario tree. -/
theorem sync_dir_absent_amended_witness :
    getTask { localStatus := .dir, remoteStatus := .absent } =
      { method := .sync, removeRemote := false } ∧
    Op.mkdir ["sub"] ∉ (sync 5 plainEnv ["sub"] ["sub"]
      (.dir [("x.txt", .file)]) none).1 :=
  sync_dir_absent_amended 5 plainEnv ["sub"] ["sub"] (.dir [("x.txt", .file)])
    none ["sub"]
    (WFT.dir (by decide) (by
      intro c hc
      rw [List.mem_singleton] at hc
      rw [hc]
      exact WFT.file))

theorem lookupChild_cons_eq {a : String × FTree} {l : List (String × FTree)}
    {n : String} (h : a.1 = n) : lookupChild (a :: l) n = some a.2 := by
  unfold lookupChild
  rw [List.find?_cons_of_pos]
  · rfl
  · simp [h]

theorem lookupChild_cons_ne {a : String × FTree} {l : List (String × FTree)}
    {n : String} (h : ¬a.1 = n) : lookupChild (a :: l) n = lookupChild l n := by
  unfold lookupChild
  rw [List.find?_cons_of_neg]
  simp [h]

theorem getTask_absent {st : Stats} (h : st.localStatus = LocalStatus.absent) :
    getTask st = { method := Method.noop, removeRemote := true } := by
  rcases st with ⟨l, r⟩
  dsimp only at h
  subst h
  cases r <;> rfl

theorem getTask_local_file {st : Stats} (h : st.localStatus = LocalStatus.file) :
    (getTask st).method = Method.upload := by
  rcases st with ⟨l, r⟩
  dsimp only at h
  subst h
  cases r <;> rfl

theorem getTask_local_dir {st : Stats} (h : st.localStatus = LocalStatus.dir) :
    (getTask st).method = Method.sync := by
  rcases st with ⟨l, r⟩
  dsimp only at h
  subst h
  cases r <;> rfl

theorem upload_parent_false_error (fuel : Nat) (env : DeployEnv) (rel rpath : Path)
    (t : FTree) : ∃ e, (upload fuel env rel rpath t false).2 = Except.error e := by
  cases fuel with
  | zero => exact ⟨fuelErr, rfl⟩
  | succ f =>
    cases t with
    | file => exact ⟨{ code := 2 }, rfl⟩
    | dir cs => exact ⟨{ code := 2 }, rfl⟩

theorem upload_ok_file {fuel : Nat} {env : DeployEnv} {rel rpath : Path}
    {pOk : Bool} {tr : List Op} {u : FTree}
    (h : upload fuel env rel rpath .file pOk = (tr, .ok u)) : u = .file := by
  cases fuel with
  | zero =>
    simp only [upload] at h
    injection h with h1 h2
    cases h2
  | succ f =>
    cases pOk with
    | false =>
      simp only [upload, Bool.false_eq_true, if_false] at h
      injection h with h1 h2
      cases h2
    | true =>
      simp only [upload, if_true] at h
      injection h with h1 h2
      exact (Except.ok.inj h2).symm

theorem sync_ok_value_none {fuel : Nat} {env : DeployEnv} {rel rpath : Path}
    {lt : FTree} {tr : List Op} {v : Option FTree}
    (h : sync fuel env rel rpath lt none = (tr, .ok v)) : v = none := by
  cases fuel with
  | zero =>
    simp only [sync] at h
    injection h with h1 h2
    cases h2
  | succ f =>
    simp only [sync, buildProject_none] at h
    by_cases hd : env.dryRun
    · rw [if_pos hd] at h
      split at h
      · injection h with h1 h2; cases h2
      · injection h with h1 h2; exact (Except.ok.inj h2).symm
    · rw [if_neg hd] at h
      split at h
      · injection h with h1 h2; cases h2
      · injection h with h1 h2; exact (Except.ok.inj h2).symm

theorem sync_ok_value_shape {fuel : Nat} {env : DeployEnv} {rel rpath : Path}
    {lt : FTree} {r : Option FTree} {tr : List Op} {v : Option FTree}
    (h : sync fuel env rel rpath lt r = (tr, .ok v)) :
    v = none ∨ ∃ cs, v = some (.dir cs) := by
  cases r with
  | none => exact Or.inl (sync_ok_value_none h)
  | some rt =>
    cases rt with
    | file =>
      cases fuel with
      | zero =>
        simp only [sync] at h
        injection h with h1 h2
        cases h2
      | succ f =>
        rcases hbp : buildProject (treeSession rpath (some .file)) env rel rpath
          lt.childrenOf with ⟨trb, bres⟩
        have hbe := buildProject_file_error env rel rpath lt.childrenOf
        rw [hbp] at hbe
        dsimp only at hbe
        subst hbe
        simp only [sync, hbp] at h
        injection h with h1 h2
        cases h2
    | dir rcs =>
      cases fuel with
      | zero =>
        simp only [sync] at h
        injection h with h1 h2
        cases h2
      | succ f =>
        rcases hbp : buildProject (treeSession rpath (some (.dir rcs))) env rel
          rpath lt.childrenOf with ⟨trb, bres⟩
        cases bres with
        | error e0 =>
          simp only [sync, hbp] at h
          injection h with h1 h2
          cases h2
        | ok project =>
          simp only [sync, hbp] at h
          by_cases hd : env.dryRun
          · rw [if_pos hd] at h
            split at h
            · injection h with h1 h2; cases h2
            · injection h with h1 h2
              exact Or.inr ⟨rcs, (Except.ok.inj h2).symm⟩
          · rw [if_neg hd] at h
            split at h
            · injection h with h1 h2; cases h2
            · injection h with h1 h2
              exact Or.inr ⟨_, (Except.ok.inj h2).symm⟩

theorem buildProject_tree_dir_ok (env : DeployEnv) (rel rpath : Path)
    (lcs cs : List (String × FTree)) :
    ∃ project,
      (buildProject (treeSession rpath (some (.dir cs))) env rel rpath lcs).2 =
        .ok project := by
  have hrd : (treeSession rpath (some (.dir cs))).readdir rpath =
      .ok (cs.map (·.1)) := by
    simp [treeSession]
  have hse : firstStatErr ((cs.map (·.1)).map (fun n =>
      (n, (treeSession rpath (some (.dir cs))).statIsDir (rpath ++ [n])))) =
      none := by
    unfold firstStatErr
    rw [List.findSome?_eq_none_iff]
    intro x hx
    rcases List.mem_map.mp hx with ⟨n, hn, rfl⟩
    rcases lookupChild_isSome_iff.mpr hn with ⟨t, hlk⟩
    rw [treeSession_stat_dir hlk]
  unfold buildProject
  rw [hrd]
  dsimp only
  rw [hse]
  exact ⟨_, rfl⟩

theorem applyTask_ok_value {fuel : Nat} {env : DeployEnv} {rel rpath : Path}
    {lcs : List (String × FTree)} {r : Option FTree} {e : String × Stats}
    {tr : List Op} {w : Option (String × FTree)}
    (h : applyTask fuel env rel rpath lcs r e = (tr, .ok w)) :
    ((getTask e.2).method = Method.noop ∧
      w = (if (getTask e.2).removeRemote then none
           else (childLookup r e.1).map (fun rt => (e.1, rt)))) ∨
    ((getTask e.2).method = Method.upload ∧ ∃ g t u tru,
      fuel = g + 1 ∧ lookupChild lcs e.1 = some t ∧
      upload g env (rel ++ [e.1]) (rpath ++ [e.1]) t (parentExists r) =
        (tru, .ok u) ∧
      w = some (e.1, u)) ∨
    ((getTask e.2).method = Method.sync ∧ ∃ g t vv trc,
      fuel = g + 1 ∧ lookupChild lcs e.1 = some t ∧
      sync g env (rel ++ [e.1]) (rpath ++ [e.1]) t
        (if (getTask e.2).removeRemote then none else childLookup r e.1) =
        (trc, .ok vv) ∧
      w = vv.map (fun rt => (e.1, rt))) := by
  cases fuel with
  | zero =>
    simp only [applyTask] at h
    injection h with h1 h2
    cases h2
  | succ f =>
    by_cases hrm : (getTask e.2).removeRemote
    · cases hcl : childLookup r e.1 with
      | none =>
        simp only [applyTask, hrm, if_true, hcl] at h
        injection h with h1 h2
        cases h2
      | some rt =>
        rcases hRR : removeRemote f (rpath ++ [e.1]) rt with ⟨tr2, res2⟩
        cases res2 with
        | error er =>
          simp only [applyTask, hrm, if_true, hcl, hRR] at h
          injection h with h1 h2
          cases h2
        | ok u0 =>
          cases u0
          cases hm : (getTask e.2).method with
          | noop =>
            simp only [applyTask, hrm, if_true, hcl, hRR, hm, noop, Except.map,
              List.append_nil] at h
            injection h with h1 h2
            refine Or.inl ⟨rfl, ?_⟩
            rw [if_pos hrm]
            exact (Except.ok.inj h2).symm
          | upload =>
            cases hlk : lookupChild lcs e.1 with
            | some t =>
              rcases hU : upload f env (rel ++ [e.1]) (rpath ++ [e.1]) t
                (parentExists r) with ⟨tru, resu⟩
              cases resu with
              | error eu =>
                simp only [applyTask, hrm, if_true, hcl, hRR, hm, hlk, hU,
                  Except.map] at h
                injection h with h1 h2
                cases h2
              | ok u =>
                simp only [applyTask, hrm, if_true, hcl, hRR, hm, hlk, hU,
                  Except.map] at h
                injection h with h1 h2
                exact Or.inr (Or.inl ⟨rfl, f, t, u, tru, rfl, rfl, hU,
                  (Except.ok.inj h2).symm⟩)
            | none =>
              simp only [applyTask, hrm, if_true, hcl, hRR, hm, hlk] at h
              injection h with h1 h2
              cases h2
          | sync =>
            cases hlk : lookupChild lcs e.1 with
            | some t =>
              rcases hS : sync f env (rel ++ [e.1]) (rpath ++ [e.1]) t none with
                ⟨trc, resc⟩
              cases resc with
              | error ec =>
                simp only [applyTask, hrm, if_true, hcl, hRR, hm, hlk, hS,
                  Except.map] at h
                injection h with h1 h2
                cases h2
              | ok vv =>
                simp only [applyTask, hrm, if_true, hcl, hRR, hm, hlk, hS,
                  Except.map] at h
                injection h with h1 h2
                refine Or.inr (Or.inr ⟨rfl, f, t, vv, trc, rfl, rfl, ?_, ?_⟩)
                · rw [if_pos hrm]
                  exact hS
                · exact (Except.ok.inj h2).symm
            | none =>
              simp only [applyTask, hrm, if_true, hcl, hRR, hm, hlk] at h
              injection h with h1 h2
              cases h2
    · cases hm : (getTask e.2).method with
      | noop =>
        simp only [applyTask, hrm, Bool.false_eq_true, if_false, hm, noop,
          Except.map, List.nil_append, List.append_nil] at h
        injection h with h1 h2
        refine Or.inl ⟨rfl, ?_⟩
        rw [if_neg hrm]
        exact (Except.ok.inj h2).symm
      | upload =>
        cases hlk : lookupChild lcs e.1 with
        | some t =>
          rcases hU : upload f env (rel ++ [e.1]) (rpath ++ [e.1]) t
            (parentExists r) with ⟨tru, resu⟩
          cases resu with
          | error eu =>
            simp only [applyTask, hrm, Bool.false_eq_true, if_false, hm, hlk, hU,
              Except.map, List.nil_append] at h
            injection h with h1 h2
            cases h2
          | ok u =>
            simp only [applyTask, hrm, Bool.false_eq_true, if_false, hm, hlk, hU,
              Except.map, List.nil_append] at h
            injection h with h1 h2
            exact Or.inr (Or.inl ⟨rfl, f, t, u, tru, rfl, rfl, hU,
              (Except.ok.inj h2).symm⟩)
        | none =>
          simp only [applyTask, hrm, Bool.false_eq_true, if_false, hm, hlk] at h
          injection h with h1 h2
          cases h2
      | sync =>
        cases hlk : lookupChild lcs e.1 with
        | some t =>
          rcases hS : sync f env (rel ++ [e.1]) (rpath ++ [e.1]) t
            (childLookup r e.1) with ⟨trc, resc⟩
          cases resc with
          | error ec =>
            simp only [applyTask, hrm, Bool.false_eq_true, if_false, hm, hlk, hS,
              Except.map, List.nil_append] at h
            injection h with h1 h2
            cases h2
          | ok vv =>
            simp only [applyTask, hrm, Bool.false_eq_true, if_false, hm, hlk, hS,
              Except.map, List.nil_append] at h
            injection h with h1 h2
            refine Or.inr (Or.inr ⟨rfl, f, t, vv, trc, rfl, rfl, ?_, ?_⟩)
            · rw [if_neg hrm]
              exact hS
            · exact (Except.ok.inj h2).symm
        | none =>
          simp only [applyTask, hrm, Bool.false_eq_true, if_false, hm, hlk] at h
          injection h with h1 h2
          cases h2

theorem applyTask_ok_name {fuel : Nat} {env : DeployEnv} {rel rpath : Path}
    {lcs : List (String × FTree)} {r : Option FTree} {e : String × Stats}
    {tr : List Op} {w : Option (String × FTree)}
    (h : applyTask fuel env rel rpath lcs r e = (tr, .ok w)) :
    ∀ pr, w = some pr → pr.1 = e.1 := by
  intro pr hpr
  rcases applyTask_ok_value h with ⟨_, hw⟩ | ⟨_, g, t, u, tru, _, _, _, hw⟩ |
      ⟨_, g, t, vv, trc, _, _, _, hw⟩
  · rw [hw] at hpr
    split at hpr
    · cases hpr
    · rcases Option.map_eq_some'.mp hpr with ⟨rt, hrt, hpr2⟩
      rw [← hpr2]
  · rw [hw] at hpr
    have h3 := Option.some.inj hpr
    rw [← h3]
  · rw [hw] at hpr
    rcases Option.map_eq_some'.mp hpr with ⟨rt, hrt, hpr2⟩
    rw [← hpr2]

theorem lookup_filterMap_notmem
    {rs : List (List Op × Except SftpErr (Option (String × FTree)))} {n : String}
    (hn : ∀ p ∈ rs, ∀ pr, p.2.toOption.bind id = some pr → ¬pr.1 = n) :
    lookupChild (rs.filterMap (fun p => p.2.toOption.bind id)) n = none := by
  have hf : (rs.filterMap (fun p => p.2.toOption.bind id)).find?
      (fun c => c.1 == n) = none := by
    rw [List.find?_eq_none]
    intro x hx
    rcases List.mem_filterMap.mp hx with ⟨p, hp, hpx⟩
    have h2 := hn p hp x hpx
    simp [h2]
  unfold lookupChild
  rw [hf]
  rfl

theorem lookup_results_filterMap
    (f2 : String × Stats → List Op × Except SftpErr (Option (String × FTree)))
    (hname : ∀ e pr, (f2 e).2.toOption.bind id = some pr → pr.1 = e.1) :
    ∀ (project : List (String × Stats)), (project.map Prod.fst).Nodup →
    ∀ e ∈ project, ∀ w, (f2 e).2 = .ok w →
    lookupChild ((project.map f2).filterMap (fun p => p.2.toOption.bind id)) e.1 =
      w.map Prod.snd := by
  intro project
  induction project with
  | nil =>
    intro _ e he
    cases he
  | cons hd0 rest ih =>
    intro hnd e he w hw
    rw [List.map_cons, List.nodup_cons] at hnd
    rw [List.map_cons]
    rcases List.mem_cons.mp he with rfl | he2
    · have hc : (f2 e).2.toOption.bind id = w := by
        rw [hw]
        rfl
      cases w with
      | none =>
        rw [@List.filterMap_cons_none _ _ (fun p => p.2.toOption.bind id) (f2 e)
          (List.map f2 rest) hc]
        apply lookup_filterMap_notmem
        intro p hp pr hpr
        rcases List.mem_map.mp hp with ⟨e2, he2, rfl⟩
        rw [hname e2 pr hpr]
        intro hcontra
        exact hnd.1 (hcontra ▸ List.mem_map_of_mem Prod.fst he2)
      | some pr =>
        rw [@List.filterMap_cons_some _ _ (fun p => p.2.toOption.bind id) (f2 e)
          (List.map f2 rest) _ hc]
        rw [lookupChild_cons_eq (hname e pr hc)]
        rfl
    · have hne : ¬hd0.1 = e.1 := by
        intro hcontra
        exact hnd.1 (hcontra ▸ List.mem_map_of_mem Prod.fst he2)
      cases hhc : (f2 hd0).2.toOption.bind id with
      | none =>
        rw [@List.filterMap_cons_none _ _ (fun p => p.2.toOption.bind id) (f2 hd0)
          (List.map f2 rest) hhc]
        exact ih hnd.2 e he2 w hw
      | some pr0 =>
        rw [@List.filterMap_cons_some _ _ (fun p => p.2.toOption.bind id) (f2 hd0)
          (List.map f2 rest) _ hhc]
        rw [lookupChild_cons_ne (by rw [hname hd0 pr0 hhc]; exact hne)]
        exact ih hnd.2 e he2 w hw

theorem sync_ok_entries {f : Nat} {env : DeployEnv} {rel rpath : Path} {lt : FTree}
    {r v : Option FTree} {tr : List Op}
    (hd : env.dryRun = false)
    (hnd : (lt.childrenOf.map Prod.fst).Nodup)
    (hrun : sync (f + 1) env rel rpath lt r = (tr, .ok v)) :
    ∃ project,
      (buildProject (treeSession rpath r) env rel rpath lt.childrenOf).2 =
        .ok project ∧
      (∀ e ∈ project, ∃ trc w,
        applyTask f env rel rpath lt.childrenOf r e = (trc, .ok w) ∧
        childLookup v e.1 = w.map Prod.snd) ∧
      (∀ n t2, childLookup v n = some t2 → n ∈ project.map Prod.fst) := by
  rcases hbp : buildProject (treeSession rpath r) env rel rpath lt.childrenOf with
    ⟨trb, bres⟩
  cases bres with
  | error e0 =>
    simp only [sync, hbp] at hrun
    injection hrun with h1 h2
    cases h2
  | ok project =>
    refine ⟨project, rfl, ?_⟩
    simp only [sync, hbp] at hrun
    rw [hd] at hrun
    simp only [Bool.false_eq_true, if_false] at hrun
    split at hrun
    · injection hrun with h1 h2
      cases h2
    · rename_i hfe
      have hall := firstError_eq_none.mp hfe
      have hent : ∀ e ∈ project, ∃ trc w,
          applyTask f env rel rpath lt.childrenOf r e = (trc, .ok w) := by
        intro e he
        rcases happ : applyTask f env rel rpath lt.childrenOf r e with ⟨trc, ares⟩
        rcases hall (applyTask f env rel rpath lt.childrenOf r e)
          (List.mem_map_of_mem _ he) with ⟨a, ha⟩
        rw [happ] at ha
        dsimp only at ha
        subst ha
        exact ⟨trc, a, rfl⟩
      split at hrun
      · rename_i rcs
        injection hrun with h1 h2
        have hv := (Except.ok.inj h2).symm
        have hname : ∀ e pr, ((fun e => applyTask f env rel rpath lt.childrenOf
            (some (.dir rcs)) e) e).2.toOption.bind id = some pr →
            pr.1 = e.1 := by
          intro e pr hpr
          dsimp only at hpr
          rcases happ : applyTask f env rel rpath lt.childrenOf
            (some (.dir rcs)) e with ⟨trc, ares⟩
          rw [happ] at hpr
          dsimp only at hpr
          cases ares with
          | error e1 => cases hpr
          | ok w0 =>
            have hw0 : w0 = some pr := hpr
            exact applyTask_ok_name happ pr hw0
        have hnodup : (project.map Prod.fst).Nodup :=
          (buildProject_ok_spec hnd (by rw [hbp])).1
        constructor
        · intro e he
          rcases hent e he with ⟨trc, w, happ⟩
          refine ⟨trc, w, happ, ?_⟩
          rw [hv]
          exact lookup_results_filterMap
            (fun e => applyTask f env rel rpath lt.childrenOf (some (.dir rcs)) e)
            hname project hnodup e he w (by dsimp only; rw [happ])
        · intro n t2 hcl
          rw [hv] at hcl
          have hcl2 : lookupChild (List.filterMap
              (fun p => p.2.toOption.bind id)
              (List.map (fun e => applyTask f env rel rpath lt.childrenOf
                (some (.dir rcs)) e) project)) n = some t2 := hcl
          have hmem := lookupChild_mem hcl2
          rcases List.mem_filterMap.mp hmem with ⟨p, hp, hpc⟩
          rcases List.mem_map.mp hp with ⟨e, he, rfl⟩
          have hn := hname e (n, t2) hpc
          rw [show n = e.1 from hn]
          exact List.mem_map_of_mem Prod.fst he
      · rename_i hno
        injection hrun with h1 h2
        have hv := (Except.ok.inj h2).symm
        subst hv
        cases v with
        | none =>
          constructor
          · intro e he
            rcases hent e he with ⟨trc, w, happ⟩
            refine ⟨trc, w, happ, ?_⟩
            rcases applyTask_ok_value happ with ⟨hm, hw⟩ |
                ⟨hm, g, t, u, tru, hf, hlk, hU, hw⟩ |
                ⟨hm, g, t, vv, trc2, hf, hlk, hS, hw⟩
            · rw [hw]
              cases hb : (getTask e.2).removeRemote <;> rfl
            · have hpe : parentExists (none : Option FTree) = false := rfl
              rw [hpe] at hU
              rcases upload_parent_false_error g env (rel ++ [e.1])
                (rpath ++ [e.1]) t with ⟨er, her⟩
              rw [hU] at her
              cases her
            · have harg : (if (getTask e.2).removeRemote = true then none
                  else childLookup (none : Option FTree) e.1) =
                  (none : Option FTree) := by
                cases hb : (getTask e.2).removeRemote <;> rfl
              rw [harg] at hS
              have hvv := sync_ok_value_none hS
              rw [hw, hvv]
              rfl
          · intro n t2 hcl
            simp [childLookup, remoteChildren] at hcl
        | some rt =>
          cases rt with
          | file =>
            have hbe := buildProject_file_error env rel rpath lt.childrenOf
            rw [hbp] at hbe
            dsimp only at hbe
            cases hbe
          | dir rcs => exact (hno rcs rfl).elim

/-- C9 (amended): after a completed non-preview reconciliation run over a
well-formed local tree, a second run against the unchanged local tree and
the resulting remote tree schedules no remote removal: every entry at
every level, recursively below every `Sync` entry, is classified with
`removeRemoteFirst = false`.  (The original all-`Noop` reading fails: a
file present on both sides is classified `Upload` again.) -/
theorem second_run_no_removals (fuel2 : Nat) :
    ∀ {fuel : Nat} {env : DeployEnv} {rel rpath : Path} {lt : FTree}
      {r v : Option FTree} {tr : List Op},
    env.dryRun = false → WFT lt →
    sync fuel env rel rpath lt r = (tr, .ok v) →
    allNoRemove fuel2 env rel rpath lt v = true := by
  induction fuel2 with
  | zero =>
    intro fuel env rel rpath lt r v tr _ _ _
    rfl
  | succ fuel2 ih =>
    intro fuel env rel rpath lt r v tr hd hwf hrun
    cases fuel with
    | zero =>
      simp only [sync] at hrun
      injection hrun with h1 h2
      cases h2
    | succ f =>
      obtain ⟨hnd, hcw⟩ := WFT_childrenOf hwf
      obtain ⟨project, hbp, hent, hnames⟩ := sync_ok_entries hd hnd hrun
      obtain ⟨hnd1, hiff1, hstat1⟩ := buildProject_ok_spec hnd hbp
      obtain ⟨project2, hbp2⟩ :
          ∃ project2, (buildProject (treeSession rpath v) env rel rpath
            lt.childrenOf).2 = .ok project2 := by
        rcases sync_ok_value_shape hrun with hv | ⟨cs2, hv⟩
        · rw [hv, buildProject_none]
          exact ⟨_, rfl⟩
        · rw [hv]
          exact buildProject_tree_dir_ok env rel rpath lt.childrenOf cs2
      obtain ⟨hnd2, hiff2, hstat2⟩ := buildProject_ok_spec hnd hbp2
      rcases hbp2p : buildProject (treeSession rpath v) env rel rpath
        lt.childrenOf with ⟨trb2, bres2⟩
      rw [hbp2p] at hbp2
      dsimp only at hbp2
      subst hbp2
      simp only [allNoRemove, hbp2p]
      rw [List.all_eq_true]
      intro e2 he2
      obtain ⟨n2, ls2, rs2⟩ := e2
      obtain ⟨hls2, hrs2⟩ := hstat2 ⟨n2, ls2, rs2⟩ he2
      dsimp only at hls2 hrs2
      dsimp only
      cases hlk : lookupChild lt.childrenOf n2 with
      | none =>
        rw [hlk] at hls2
        simp only [localStatusFor] at hls2
        subst hls2
        have hmem2 : n2 ∈ project2.map Prod.fst :=
          List.mem_map.mpr ⟨⟨n2, .absent, rs2⟩, he2, rfl⟩
        rcases (hiff2 n2).mp hmem2 with hl | ⟨t2, ht2⟩
        · rcases lookupChild_isSome_iff.mpr hl with ⟨t0, ht0⟩
          rw [hlk] at ht0
          cases ht0
        · have hn1 : n2 ∈ project.map Prod.fst := hnames n2 t2 ht2
          rcases List.mem_map.mp hn1 with ⟨e1, he1, hfst⟩
          obtain ⟨hls1, hrs1⟩ := hstat1 e1 he1
          rw [hfst, hlk] at hls1
          simp only [localStatusFor] at hls1
          have hgt := getTask_absent hls1
          obtain ⟨trc, w, happ, hcl⟩ := hent e1 he1
          rcases applyTask_ok_value happ with ⟨hm, hw⟩ | ⟨hm, hrest⟩ |
              ⟨hm, hrest⟩
          · rw [hgt] at hw
            simp at hw
            rw [hfst, ht2, hw] at hcl
            cases hcl
          · rw [hgt] at hm
            cases hm
          · rw [hgt] at hm
            cases hm
      | some t =>
        rw [hlk] at hls2
        have hloc : n2 ∈ lt.childrenOf.map Prod.fst :=
          lookupChild_isSome_iff.mp ⟨t, hlk⟩
        have hn1 : n2 ∈ project.map Prod.fst := (hiff1 n2).mpr (Or.inl hloc)
        rcases List.mem_map.mp hn1 with ⟨e1, he1, hfst⟩
        obtain ⟨hls1, hrs1⟩ := hstat1 e1 he1
        rw [hfst, hlk] at hls1
        obtain ⟨trc, w, happ, hcl⟩ := hent e1 he1
        rw [hfst] at hcl
        simp only [localStatusFor] at hls1 hls2
        by_cases hig : isIgnored env (rel ++ [n2]) t.isDir
        · rw [if_pos hig] at hls2
          subst hls2
          cases rs2 <;> rfl
        · rw [if_neg hig] at hls2
          rw [if_neg hig] at hls1
          cases t with
          | file =>
            simp only [FTree.isDir, Bool.false_eq_true, if_false] at hls1 hls2
            subst hls2
            have hgt1 := getTask_local_file hls1
            rcases applyTask_ok_value happ with ⟨hm, hw⟩ |
                ⟨hm, g, t1, u, tru, hf, hlk1, hU, hw⟩ |
                ⟨hm, g, t1, vv, trc2, hf, hlk1, hS, hw⟩
            · rw [hgt1] at hm
              cases hm
            · rw [hfst, hlk] at hlk1
              have ht1 := Option.some.inj hlk1
              rw [← ht1] at hU
              have hu := upload_ok_file hU
              have hclv : childLookup v n2 = some FTree.file := by
                rw [hcl, hw, hu]
                rfl
              rw [hclv] at hrs2
              simp only [remoteStatusFor, FTree.isDir, Bool.false_eq_true,
                if_false] at hrs2
              subst hrs2
              simp [getTask]
            · rw [hgt1] at hm
              cases hm
          | dir cs =>
            simp only [FTree.isDir, if_true] at hls1 hls2
            subst hls2
            have hgt1 := getTask_local_dir hls1
            rcases applyTask_ok_value happ with ⟨hm, hw⟩ |
                ⟨hm, g, t1, u, tru, hf, hlk1, hU, hw⟩ |
                ⟨hm, g, t1, vv, trc2, hf, hlk1, hS, hw⟩
            · rw [hgt1] at hm
              cases hm
            · rw [hgt1] at hm
              cases hm
            · rw [hfst, hlk] at hlk1
              have ht1 := Option.some.inj hlk1
              rw [← ht1] at hS
              rw [hfst] at hS
              have hclv : childLookup v n2 = vv := by
                rw [hcl, hw]
                cases vv <;> rfl
              have hwt : WFT (FTree.dir cs) :=
                hcw (n2, FTree.dir cs) (lookupChild_mem hlk)
              rcases sync_ok_value_shape hS with hvv | ⟨cs3, hvv⟩
              · subst hvv
                rw [hclv] at hrs2
                simp only [remoteStatusFor] at hrs2
                subst hrs2
                have hrec : allNoRemove fuel2 env (rel ++ [n2]) (rpath ++ [n2])
                    (FTree.dir cs) none = true := ih hd hwt hS
                rw [hclv]
                simp [getTask, hrec]
              · subst hvv
                rw [hclv] at hrs2
                simp only [remoteStatusFor, FTree.isDir, if_true] at hrs2
                subst hrs2
                have hrec : allNoRemove fuel2 env (rel ++ [n2]) (rpath ++ [n2])
                    (FTree.dir cs) (some (FTree.dir cs3)) = true := ih hd hwt hS
                rw [hclv]
                simp [getTask, hrec]

/-- C9 counterexample: a first run over local `a.txt` against an empty
remote directory completes, uploading the file; the second run's scan
then classifies `a.txt` as local `File` / remote `File`, whose action is
`Upload` again — not `Noop` — so the second run is not all-`Noop`. -/
theorem second_run_not_all_noop_cex :
    sync 5 plainEnv [] [] (.dir [("a.txt", .file)]) (some (.dir [])) =
      ([Op.readdir [], Op.fastPut ["a.txt"] ["a.txt"]],
       .ok (some (.dir [("a.txt", .file)]))) ∧
    (buildProject (treeSession [] (some (.dir [("a.txt", .file)]))) plainEnv
      [] [] [("a.txt", FTree.file)]).2 =
      .ok [("a.txt", { localStatus := .file, remoteStatus := .file })] ∧
    getTask { localStatus := .file, remoteStatus := .file } ≠
      { method := .noop, removeRemote := false } :=
  ⟨rfl, rfl, by decide⟩

/-- Witness for C9 (amended) at the concrete first run of the
counterexample: the second-run classification carries no removal at any
level. -/
theorem second_run_no_removals_witness :
    allNoRemove 3 plainEnv [] [] (.dir [("a.txt", .file)])
      (some (.dir [("a.txt", .file)])) = true :=
  second_run_no_removals 3 rfl
    (WFT.dir (by decide) (fun c hc => by
      rw [List.mem_singleton] at hc
      rw [hc]
      exact WFT.file))
    (show sync 5 plainEnv [] [] (.dir [("a.txt", .file)]) (some (.dir [])) =
      ([Op.readdir [], Op.fastPut ["a.txt"] ["a.txt"]],
       .ok (some (.dir [("a.txt", .file)]))) from rfl)

end SftpSyncDeploy
